import Mathlib

/-!
Shallow embedding of the demand-paging subsystem of kernel/vm.c
(OS-212-Assignment3), together with theorems settling the frozen claims.

Modelling conventions:
- C unsigned machine words are Nat, with explicit masking to 64 bits where
  the code relies on word width; C int values are Int.
- The ambient current process (myproc() in the source) is passed explicitly;
  the page table the paging hooks operate on is the field pagetable of that
  process, modelled as a total map from page index to the 64-bit PTE word,
  together with a presence map walkOk recording for which page indices the
  three-level walk finds a PTE at all.
- External collaborators (kalloc, writeToSwapFile, readFromSwapFile, kfree,
  memset, sfence_vma) are oracles or no-ops: frame contents and the swap
  file are outside the model.  kalloc results and mappages walk-allocation
  successes are supplied as oracle streams where the code branches on them.
- A C panic is modelled by returning none from an Option-valued function.
- Loops are modelled by fuel recursion; every top-level entry point supplies
  fuel that dominates the number of iterations the C loop can execute, which
  the lemmas below establish.
-/

set_option maxHeartbeats 1600000

namespace Paging

/-- Modelled from the spec: PAGE_SIZE is 4096 (param.h / riscv.h are not in
the sources; section 6 of the spec fixes the tunables). -/
def PGSIZE : Nat := 4096

/-- Modelled from the spec: MAX_PSYC_PAGES, the physical residency cap. -/
def MAX_PSYC_PAGES : Int := 16

/-- Modelled from the spec: MAX_TOTAL_PAGES, total virtual pages per process. -/
def MAX_TOTAL_PAGES : Int := 32

/-- Modelled from the spec: the architectural valid bit of a PTE (bit 0). -/
def PTE_V : Nat := 1 <<< 0

/-- Modelled from the spec: the read permission bit (bit 1). -/
def PTE_R : Nat := 1 <<< 1

/-- Modelled from the spec: the write permission bit (bit 2). -/
def PTE_W : Nat := 1 <<< 2

/-- Modelled from the spec: the execute permission bit (bit 3). -/
def PTE_X : Nat := 1 <<< 3

/-- Modelled from the spec: the user-access permission bit (bit 4). -/
def PTE_U : Nat := 1 <<< 4

/-- Modelled from the spec: the hardware accessed bit (bit 6 in Sv39). -/
def PTE_A : Nat := 1 <<< 6

/-- Modelled from the spec: the software-reserved paged-out bit (RSW bit 9). -/
def PTE_PG : Nat := 1 <<< 9

/-- All ones in a 64-bit word; C bitwise complement of a single-bit mask m on
a 64-bit PTE is U64MASK ^^^ m. -/
def U64MASK : Nat := 2 ^ 64 - 1

/-- Modelled from the spec: PTE_FLAGS keeps the low ten flag bits. -/
def PTE_FLAGS (pte : Nat) : Nat := pte &&& 0x3FF

/-- Modelled from the spec: PA2PTE packs a physical address into a PTE. -/
def PA2PTE (pa : Nat) : Nat := (pa >>> 12) <<< 10

/-- Modelled from the spec: PGROUNDUP rounds a size up to a page boundary. -/
def PGROUNDUP (sz : Nat) : Nat := ((sz + 4095) / 4096) * 4096

/-- Conversion of a C uint value to a C int (two's complement), used where
the source stores an unsigned value into an int field. -/
def intOfUint (x : Nat) : Int := if x < 2 ^ 31 then (x : Int) else (x : Int) - 2 ^ 32

/-- Conversion of a C int value to a C uint (reduction mod 2^32), used where
the source compares or passes an int where a uint is expected. -/
def uintOfInt (x : Int) : Nat := (x % (2 ^ 32 : Int)).toNat

/-- The build-time SELECTION constant choosing the replacement policy. -/
inductive Selection where
  | NONE
  | NFUA
  | LAPA
  | SCFIFO
deriving DecidableEq

/-- One entry of the per-process paging metadata array (struct proc fields
data[i].inUse, data[i].offset, data[i].agingCounter; proc.h is not in the
sources, the field set is fixed by the spec's PageMeta entity). -/
structure PageMeta where
  inUse : Bool
  offset : Int
  agingCounter : Nat
deriving DecidableEq

/-- The paging-relevant state of one process: the PageMeta array data, the
circular resident queue (pages, head, tail, numOfPages), the scalar
pagesInMemory, the process size sz, the pid, and the process page table
(pagetable for PTE words, walkOk for walk(...) != 0). -/
structure Proc where
  pid : Int
  sz : Nat
  pagesInMemory : Int
  data : Int → PageMeta
  pages : Int → Int
  head : Int
  tail : Int
  numOfPages : Int
  pagetable : Int → Nat
  walkOk : Int → Bool

/-- The queue insert of vm.c lines 161-168 (the C function is named in,
which Lean reserves): advance tail with wraparound at MAX_TOTAL_PAGES - 1,
store the page there, bump numOfPages.  The C sequence
(if tail == 31 then tail = -1); tail += 1 equals this conditional. -/
def inQ (p : Proc) (page : Int) : Proc :=
  let t : Int := if p.tail = 31 then 0 else p.tail + 1
  { p with tail := t, pages := Function.update p.pages t page,
           numOfPages := p.numOfPages + 1 }

/-- The queue removal of vm.c lines 170-177 (the C function is named out):
advance head with wraparound, decrement numOfPages.  Callers read
pages[head] before calling it. -/
def outQ (p : Proc) : Proc :=
  let h : Int := if p.head = 31 then 0 else p.head + 1
  { p with head := h, numOfPages := p.numOfPages - 1 }

/-- Loop body of removePage, vm.c lines 179-189.  The C loop re-reads
numOfPages (which the body changes) in its condition, hence the explicit
counter i checked against the current numOfPages. -/
def rmLoop (p : Proc) (pageNumber : Int) (i : Int) : Nat → Proc
  | 0 => p
  | fuel + 1 =>
    if i < p.numOfPages then
      let page := p.pages p.head
      let p1 := outQ p
      let p2 := if page ≠ pageNumber then inQ p1 page else p1
      rmLoop p2 pageNumber (i + 1) fuel
    else p

/-- removePage, vm.c lines 179-189: rotate the queue once, dropping the
given page.  The loop runs at most numOfPages times, so numOfPages + 1
fuel is never exhausted. -/
def removePage (p : Proc) (pageNumber : Int) : Proc :=
  rmLoop p pageNumber 0 (p.numOfPages.toNat + 1)

/-- Scan of nfua, vm.c lines 562-575, unrolled from index i with rem
iterations left, carrying the running minimum and its index. -/
def nfuaGo (p : Proc) (i : Nat) (mn : Nat) (index : Int) : Nat → Int
  | 0 => index
  | rem + 1 =>
    if (p.data (i : Int)).inUse = true ∧ (p.data (i : Int)).agingCounter < mn then
      nfuaGo p (i + 1) (p.data (i : Int)).agingCounter (i : Int) rem
    else
      nfuaGo p (i + 1) mn index rem

/-- nfua, vm.c lines 562-575: index of the in-use page (indices 3..31) with
the smallest agingCounter strictly below 1 << 31, or -1. -/
def nfua (p : Proc) : Int :=
  nfuaGo p 3 (1 <<< 31) (-1) 29

/-- countOnes, vm.c lines 577-586: population count of a uint. -/
def countOnes (age : Nat) : Nat :=
  if age = 0 then 0 else (age &&& 1) + countOnes (age >>> 1)
termination_by age
decreasing_by
  rename_i h
  rw [Nat.shiftRight_one]
  omega

/-- Scan of lapa, vm.c lines 588-606, unrolled from index i with rem
iterations left.  The C comparison age < minAge compares a uint with an
int, converting minAge to uint; storing age into the int minAge converts
the uint to int. -/
def lapaGo (p : Proc) (i : Nat) (minOnes minAge pageIndex : Int) : Nat → Int
  | 0 => pageIndex
  | rem + 1 =>
    if (p.data (i : Int)).inUse = true then
      let age := (p.data (i : Int)).agingCounter
      let numOfOnes : Int := (countOnes age : Int)
      if minOnes = -1 ∨ numOfOnes < minOnes ∨
          (numOfOnes = minOnes ∧ age < uintOfInt minAge) then
        lapaGo p (i + 1) numOfOnes (intOfUint age) (i : Int) rem
      else
        lapaGo p (i + 1) minOnes minAge pageIndex rem
    else
      lapaGo p (i + 1) minOnes minAge pageIndex rem

/-- lapa, vm.c lines 588-606: in-use page (indices 3..31) with the fewest
one bits in its agingCounter, ties by smaller counter then lower index,
or -1 when no page with index at least 3 is in use. -/
def lapa (p : Proc) : Int :=
  lapaGo p 3 (-1) (-1) (-1) 29

/-- Loop of scfifo, vm.c lines 608-629, with counter i checked against the
current numOfPages.  The page at head whose PTE lacks the accessed bit is
dequeued and returned; an accessed page has the bit cleared and is rotated
to the tail.  When the loop exits (full rotation) the now-first page is
dequeued and returned; exhausted fuel behaves like loop exit (the supplied
fuel is shown sufficient in the lemmas).  The source dereferences the walk
result unconditionally, so the PTE is read from the total map. -/
def scfLoop (p : Proc) (i : Int) : Nat → Int × Proc
  | 0 => (p.pages p.head, outQ p)
  | fuel + 1 =>
    if i < p.numOfPages then
      let page := p.pages p.head
      let pte := p.pagetable page
      if pte &&& PTE_A ≠ 0 then
        let p1 := { p with
          pagetable := Function.update p.pagetable page (pte &&& (U64MASK ^^^ PTE_A)) }
        scfLoop (inQ (outQ p1) page) (i + 1) fuel
      else
        (page, outQ p)
    else
      (p.pages p.head, outQ p)

/-- scfifo, vm.c lines 608-629. -/
def scfifo (p : Proc) : Int × Proc :=
  scfLoop p 0 (p.numOfPages.toNat + 1)

/-- getIndexToRemove, vm.c lines 631-648: dispatch on the SELECTION
constant; returns 0 when SELECTION is NONE (the final return 0).  The
SCFIFO selector mutates the queue and PTEs, so the (possibly updated)
process is returned alongside the index. -/
def getIndexToRemove (sel : Selection) (p : Proc) : Int × Proc :=
  match sel with
  | .NFUA => (nfua p, p)
  | .LAPA => (lapa p, p)
  | .SCFIFO => scfifo p
  | .NONE => (0, p)

/-- initAging, vm.c lines 691-706: the initial agingCounter for a page just
made resident; under SCFIFO it also enqueues the page. -/
def initAging (sel : Selection) (page : Int) (p : Proc) : Nat × Proc :=
  match sel with
  | .NFUA => (0, p)
  | .LAPA => (0xFFFFFFFF, p)
  | .SCFIFO => (0, inQ p page)
  | .NONE => (0, p)

/-- Loop of getOffset, vm.c lines 292-307, scanning candidate offsets i = 0,
PGSIZE, 2*PGSIZE, ... below sz; the inner loop marks i used when any
data[j].offset equals it.  When the scan exhausts [0, sz) the function
returns found, which is still 0. -/
def getOffsetGo (p : Proc) (i : Nat) : Nat → Nat
  | 0 => 0
  | fuel + 1 =>
    if i < p.sz then
      if (List.range 32).any
          (fun j : Nat => (p.data (j : Int)).offset == (i : Int)) then
        getOffsetGo p (i + 4096) fuel
      else i
    else 0

/-- getOffset, vm.c lines 292-307. -/
def getOffset (p : Proc) : Nat :=
  getOffsetGo p 0 (p.sz / 4096 + 1)

/-- page_to_file, vm.c lines 650-664: pick the victim via the policy, write
its frame to the swap file (fatal on failure, so the surviving execution
always reaches the updates), free the frame, clear the valid bit and set
the paged-out bit in its PTE, and update the metadata.  The uint parameter
pageOffset is stored into the int offset field. -/
def page_to_file (sel : Selection) (p0 : Proc) (pageOffset : Nat) : Proc :=
  let r := getIndexToRemove sel p0
  let index := r.1
  let p := r.2
  let pte := p.pagetable index
  { p with
    pagetable := Function.update p.pagetable index
      ((pte &&& (U64MASK ^^^ PTE_V)) ||| PTE_PG),
    data := Function.update p.data index
      { p.data index with offset := intOfUint pageOffset, inUse := false },
    pagesInMemory := p.pagesInMemory - 1 }

/-- The virtual address page_to_file hands to walk at vm.c line 655:
index * PGSIZE for the selected victim index, with no check that the
index is non-negative. -/
def page_to_file_walkVA (sel : Selection) (p : Proc) : Int :=
  (getIndexToRemove sel p).1 * 4096

/-- swap_in, vm.c lines 666-689.  The faulting page index is
PGROUNDDOWN(va)/PGSIZE; a -1 offset or a failed kalloc (buff = 0) panics.
The frame contents read from the swap file are outside the model.  Below
the residency cap the fresh frame is installed with the valid bit; at the
cap page_to_file is invoked with this page's offset first, then the frame
is installed with the paged-out flag bit cleared and valid set.  Metadata
updates follow in source order. -/
def swap_in (sel : Selection) (p : Proc) (va : Nat) (buff : Nat) : Option Proc :=
  let missingPageIndex : Int := ((va / 4096 : Nat) : Int)
  if (p.data missingPageIndex).offset = -1 then none
  else
    let pageOffset : Nat := uintOfInt (p.data missingPageIndex).offset
    if buff = 0 then none
    else
      let p1 :=
        if p.pagesInMemory < 16 then
          let newPte := PA2PTE buff ||| PTE_V
          { p with pagetable := Function.update p.pagetable missingPageIndex newPte }
        else
          let p2 := page_to_file sel p pageOffset
          let pte := p2.pagetable missingPageIndex
          let newPte := PA2PTE buff ||| ((PTE_FLAGS pte &&& (U64MASK ^^^ PTE_PG)) ||| PTE_V)
          { p2 with pagetable := Function.update p2.pagetable missingPageIndex newPte }
      let ia := initAging sel missingPageIndex p1
      let p3 := ia.2
      some { p3 with
        data := Function.update p3.data missingPageIndex
          { p3.data missingPageIndex with
              agingCounter := ia.1, offset := -1, inUse := true },
        pagesInMemory := p3.pagesInMemory + 1 }

/-- Loop of uvmunmap, vm.c lines 194-233, over npages pages starting at the
page-aligned address a.  Pages whose walk fails are skipped.  A valid PTE
whose flags are exactly PTE_V panics (not a leaf); a valid PTE with
do_free triggers the kfree plus, for page indices below 32 under a paging
policy, the metadata reset and queue removal.  A present but non-valid PTE
only has its offset reset (for indices below 32 under a policy).  In all
present cases the PTE is finally cleared. -/
def unmapLoop (sel : Selection) (p : Proc) (a : Nat) (do_free : Bool) :
    Nat → Option Proc
  | 0 => some p
  | n + 1 =>
    let idx : Int := ((a / 4096 : Nat) : Int)
    if p.walkOk idx = true then
      let pte := p.pagetable idx
      if pte &&& PTE_V ≠ 0 then
        if PTE_FLAGS pte = PTE_V then none
        else
          let p1 :=
            if do_free then
              if sel ≠ Selection.NONE ∧ idx < 32 then
                let pA := { p with
                  data := Function.update p.data idx
                    { p.data idx with inUse := false, offset := -1 },
                  pagesInMemory :=
                    if p.pagesInMemory = 0 then 0 else p.pagesInMemory - 1 }
                removePage pA idx
              else p
            else p
          let p2 := { p1 with pagetable := Function.update p1.pagetable idx 0 }
          unmapLoop sel p2 (a + 4096) do_free n
      else
        let p1 :=
          if sel ≠ Selection.NONE ∧ idx < 32 then
            let m := { p.data idx with offset := (-1 : Int) }
            { p with data := Function.update p.data idx m }
          else p
        let p2 := { p1 with pagetable := Function.update p1.pagetable idx 0 }
        unmapLoop sel p2 (a + 4096) do_free n
    else unmapLoop sel p (a + 4096) do_free n

/-- uvmunmap, vm.c lines 194-233: panics on an unaligned va, then walks the
range page by page. -/
def uvmunmap (sel : Selection) (p : Proc) (va : Nat) (npages : Nat)
    (do_free : Bool) : Option Proc :=
  if va % 4096 ≠ 0 then none
  else unmapLoop sel p va do_free npages

/-- One single-page mappages call, vm.c lines 139-159 (every call site in
the paging code maps exactly PGSIZE bytes).  The oracle ok stands for the
internal walk(..., alloc=1) succeeding; on failure mappages returns -1.  A
still-valid PTE panics (remap).  On success the PTE is written and the
walk for this index is guaranteed to succeed afterwards. -/
def mappagesOne (p : Proc) (idx : Int) (pa : Nat) (perm : Nat) (ok : Bool) :
    Option (Int × Proc) :=
  if ok = false then some (-1, p)
  else if p.pagetable idx &&& PTE_V ≠ 0 then none
  else some (0, { p with
    pagetable := Function.update p.pagetable idx (PA2PTE pa ||| perm ||| PTE_V),
    walkOk := Function.update p.walkOk idx true })

/-- uvmdealloc, vm.c lines 377-389. -/
def uvmdealloc (sel : Selection) (p : Proc) (oldsz newsz : Nat) :
    Option (Nat × Proc) :=
  if oldsz ≤ newsz then some (oldsz, p)
  else if PGROUNDUP newsz < PGROUNDUP oldsz then
    match uvmunmap sel p (PGROUNDUP newsz)
        ((PGROUNDUP oldsz - PGROUNDUP newsz) / 4096) true with
    | none => none
    | some p1 => some (newsz, p1)
  else some (newsz, p)

/-- Loop of NONE_uvmalloc, vm.c lines 266-290: the stock xv6 allocation
path used when SELECTION is NONE.  kallocRes k is the k-th kalloc result
(0 for failure), mapOk k the k-th mappages walk success. -/
def NONEuvmallocLoop (p : Proc) (a newsz oldszR : Nat) (k : Nat)
    (kallocRes : Nat → Nat) (mapOk : Nat → Bool) : Nat → Option (Nat × Proc)
  | 0 => some (newsz, p)
  | fuel + 1 =>
    if a < newsz then
      let mem := kallocRes k
      if mem = 0 then
        match uvmdealloc Selection.NONE p a oldszR with
        | none => none
        | some q => some (0, q.2)
      else
        match mappagesOne p ((a / 4096 : Nat) : Int) mem
            (PTE_W ||| PTE_X ||| PTE_R ||| PTE_U) (mapOk k) with
        | none => none
        | some rp =>
          if rp.1 ≠ 0 then
            match uvmdealloc Selection.NONE rp.2 a oldszR with
            | none => none
            | some q => some (0, q.2)
          else
            NONEuvmallocLoop rp.2 (a + 4096) newsz oldszR (k + 1)
              kallocRes mapOk fuel
    else some (newsz, p)

/-- NONE_uvmalloc, vm.c lines 266-290. -/
def NONE_uvmalloc (p : Proc) (oldsz newsz : Nat)
    (kallocRes : Nat → Nat) (mapOk : Nat → Bool) : Option (Nat × Proc) :=
  if newsz < oldsz then some (oldsz, p)
  else NONEuvmallocLoop p (PGROUNDUP oldsz) newsz (PGROUNDUP oldsz) 0
    kallocRes mapOk ((newsz - PGROUNDUP oldsz) / 4096 + 1)

/-- Loop of uvmalloc, vm.c lines 309-371, for a paging policy.  The local
the source calls numOfPages (a / PGSIZE) is pageIdx here to avoid clashing
with the queue counter.  Growth past index MAX_TOTAL_PAGES returns -1 cast
to uint64.  At the residency cap, page_to_file runs first and the kalloc
result is not null-checked; otherwise the frame is null-checked, zeroed
and mapped.  Failures roll back through uvmdealloc and return 0.  For
pid <= 1 the stock path is used and no metadata is touched. -/
def uvmallocLoop (sel : Selection) (p : Proc) (a newsz oldszR : Nat) (k : Nat)
    (kallocRes : Nat → Nat) (mapOk : Nat → Bool) : Nat → Option (Nat × Proc)
  | 0 => some (newsz, p)
  | fuel + 1 =>
    if a < newsz then
      if 1 < p.pid then
        let pageIdx : Nat := a / 4096
        if 32 < pageIdx then some (2 ^ 64 - 1, p)
        else if 16 ≤ p.pagesInMemory then
          let p1 := page_to_file sel p (getOffset p)
          let mem := kallocRes k
          match mappagesOne p1 (pageIdx : Int) mem
              (PTE_W ||| PTE_R ||| PTE_X ||| PTE_U) (mapOk k) with
          | none => none
          | some rp =>
            if rp.1 < 0 then
              match uvmdealloc sel rp.2 newsz oldszR with
              | none => none
              | some q => some (0, q.2)
            else
              let p2 := rp.2
              let p3 := { p2 with
                data := Function.update p2.data (pageIdx : Int)
                  { p2.data (pageIdx : Int) with inUse := true, offset := -1 },
                pagesInMemory := p2.pagesInMemory + 1 }
              let ia := initAging sel (pageIdx : Int) p3
              let p4 := { ia.2 with
                data := Function.update ia.2.data (pageIdx : Int)
                  { ia.2.data (pageIdx : Int) with agingCounter := ia.1 } }
              uvmallocLoop sel p4 (a + 4096) newsz oldszR (k + 1)
                kallocRes mapOk fuel
        else
          let mem := kallocRes k
          if mem = 0 then
            match uvmdealloc sel p a oldszR with
            | none => none
            | some q => some (0, q.2)
          else
            match mappagesOne p (pageIdx : Int) mem
                (PTE_W ||| PTE_X ||| PTE_R ||| PTE_U) (mapOk k) with
            | none => none
            | some rp =>
              if rp.1 < 0 then
                match uvmdealloc sel rp.2 a oldszR with
                | none => none
                | some q => some (0, q.2)
              else
                let p2 := rp.2
                let p3 := { p2 with
                  data := Function.update p2.data (pageIdx : Int)
                    { p2.data (pageIdx : Int) with inUse := true },
                  pagesInMemory := p2.pagesInMemory + 1 }
                let ia := initAging sel (pageIdx : Int) p3
                let p4 := { ia.2 with
                  data := Function.update ia.2.data (pageIdx : Int)
                    { ia.2.data (pageIdx : Int) with agingCounter := ia.1 } }
                uvmallocLoop sel p4 (a + 4096) newsz oldszR (k + 1)
                  kallocRes mapOk fuel
      else
        let mem := kallocRes k
        if mem = 0 then
          match uvmdealloc sel p a oldszR with
          | none => none
          | some q => some (0, q.2)
        else
          match mappagesOne p ((a / 4096 : Nat) : Int) mem
              (PTE_W ||| PTE_X ||| PTE_R ||| PTE_U) (mapOk k) with
          | none => none
          | some rp =>
            if rp.1 ≠ 0 then
              match uvmdealloc sel rp.2 a oldszR with
              | none => none
              | some q => some (0, q.2)
            else
              uvmallocLoop sel rp.2 (a + 4096) newsz oldszR (k + 1)
                kallocRes mapOk fuel
    else some (newsz, p)

/-- uvmalloc, vm.c lines 309-371: delegates to NONE_uvmalloc when the
policy is NONE, returns oldsz unchanged when newsz < oldsz, else grows
page by page from PGROUNDUP oldsz. -/
def uvmalloc (sel : Selection) (p : Proc) (oldsz newsz : Nat)
    (kallocRes : Nat → Nat) (mapOk : Nat → Bool) : Option (Nat × Proc) :=
  match sel with
  | .NONE => NONE_uvmalloc p oldsz newsz kallocRes mapOk
  | _ =>
    if newsz < oldsz then some (oldsz, p)
    else uvmallocLoop sel p (PGROUNDUP oldsz) newsz (PGROUNDUP oldsz) 0
      kallocRes mapOk ((newsz - PGROUNDUP oldsz) / 4096 + 1)

/-- The resident queue read as a list from head to tail. -/
def queueList (p : Proc) : List Int :=
  (List.range p.numOfPages.toNat).map
    (fun k : Nat => p.pages ((p.head + (k : Int)) % 32))

/-- Well-formedness of the circular queue cursors: head in range, count in
range, and tail one slot before head + numOfPages (mod the capacity 32). -/
def wfQ (p : Proc) : Prop :=
  0 ≤ p.head ∧ p.head < 32 ∧ 0 ≤ p.numOfPages ∧ p.numOfPages ≤ 32 ∧
    p.tail = (p.head + p.numOfPages + 31) % 32

instance (p : Proc) : Decidable (wfQ p) := by
  unfold wfQ; infer_instance

/-- Number of PageMeta entries (indices 0..31) with inUse set. -/
def countInUse (p : Proc) : Nat :=
  ((Finset.range 32).filter (fun i : Nat => (p.data (i : Int)).inUse = true)).card

/-- The quiescent-point counting invariant of spec section 8: the in-use
count agrees with pagesInMemory and respects the physical cap; under
SCFIFO the queue is well formed, duplicate free and holds exactly the
in-use page indices (so its numOfPages also agrees); under the other
policies the source never enqueues, so the queue stays empty. -/
def Inv (sel : Selection) (p : Proc) : Prop :=
  (countInUse p : Int) = p.pagesInMemory ∧ p.pagesInMemory ≤ 16 ∧ wfQ p ∧
    (if sel = Selection.SCFIFO then
      (queueList p).Nodup ∧
        ∀ x : Int, x ∈ queueList p ↔ 0 ≤ x ∧ x < 32 ∧ (p.data x).inUse = true
    else p.numOfPages = 0)

/-- Precondition under which the victim selector of a policy is guaranteed
to deliver a removable victim (compare claim C10 for NFUA). -/
def victimOk (sel : Selection) (p : Proc) : Prop :=
  match sel with
  | .NFUA => ∃ i : Nat, 3 ≤ i ∧ i < 32 ∧ (p.data (i : Int)).inUse = true ∧
      (p.data (i : Int)).agingCounter < 2 ^ 31
  | .LAPA => ∃ i : Nat, 3 ≤ i ∧ i < 32 ∧ (p.data (i : Int)).inUse = true
  | .SCFIFO => 1 ≤ p.pagesInMemory
  | .NONE => True

/-- A concrete quiescent process: pid 2, size 0, nothing resident, empty
queue (head 0, tail 31), all-zero page table, total walk map. -/
def procEmpty : Proc :=
  ⟨2, 0, 0, fun _ => ⟨false, -1, 0⟩, fun _ => 0, 0, 31, 0, fun _ => 0,
    fun _ => true⟩

/-- A concrete process with pages 3 (aging 5) and 4 (aging 7) in use. -/
def procAging : Proc :=
  ⟨2, 0, 2, fun i => if i = 3 then ⟨true, -1, 5⟩
    else if i = 4 then ⟨true, -1, 7⟩ else ⟨false, -1, 0⟩,
    fun _ => 0, 0, 31, 0, fun _ => 0, fun _ => true⟩

/-- A concrete process whose only in-use page at index at least 3 has an
aging counter of exactly 2^31. -/
def procAgingHigh : Proc :=
  ⟨2, 0, 1, fun i => if i = 3 then ⟨true, -1, 2 ^ 31⟩ else ⟨false, -1, 0⟩,
    fun _ => 0, 0, 31, 0, fun _ => 0, fun _ => true⟩

/-- A concrete process with resident queue [4, 5] and the accessed bit set
on both queued pages' PTEs. -/
def procQ2 : Proc :=
  ⟨2, 0, 2, fun i => if i = 4 ∨ i = 5 then ⟨true, -1, 0⟩ else ⟨false, -1, 0⟩,
    fun i => if i = 0 then 4 else if i = 1 then 5 else 0, 0, 1, 2,
    fun i => if i = 4 ∨ i = 5 then PTE_A ||| PTE_V else 0, fun _ => true⟩

/-- A concrete process with resident queue [4, 5, 6]. -/
def procQ3 : Proc :=
  ⟨2, 0, 3, fun _ => ⟨false, -1, 0⟩,
    fun i => if i = 0 then 4 else if i = 1 then 5 else if i = 2 then 6 else 0,
    0, 2, 3, fun _ => 0, fun _ => true⟩

/-- A concrete process whose page 3 is swapped out at offset 0 and nothing
is resident. -/
def procSwap : Proc :=
  ⟨2, 4096, 0, fun i => if i = 3 then ⟨false, 0, 0⟩ else ⟨false, -1, 0⟩,
    fun _ => 0, 0, 31, 0, fun _ => 0, fun _ => true⟩

/-- The state swap_in produces from procSwap for page 3 and frame 1. -/
def qC6 : Proc :=
  { procSwap with
    pagetable := Function.update procSwap.pagetable 3 (PA2PTE 1 ||| PTE_V),
    data := Function.update procSwap.data 3 ⟨true, -1, 0⟩,
    pagesInMemory := procSwap.pagesInMemory + 1 }

/-- A concrete two-page-sized process whose swap slot 0 is occupied. -/
def procOff : Proc :=
  ⟨2, 8192, 0, fun i => if i = 0 then ⟨false, 0, 0⟩ else ⟨false, -1, 0⟩,
    fun _ => 0, 0, 31, 0, fun _ => 0, fun _ => true⟩

/-- A concrete one-page-sized process whose only swap slot 0 is occupied. -/
def procOffFull : Proc :=
  ⟨2, 4096, 0, fun i => if i = 0 then ⟨false, 0, 0⟩ else ⟨false, -1, 0⟩,
    fun _ => 0, 0, 31, 0, fun _ => 0, fun _ => true⟩

/-! Frame and list-view lemmas for the circular queue. -/

@[simp] theorem inQ_data (p : Proc) (x : Int) : (inQ p x).data = p.data := rfl

@[simp] theorem inQ_head (p : Proc) (x : Int) : (inQ p x).head = p.head := rfl

@[simp] theorem inQ_numOfPages (p : Proc) (x : Int) :
    (inQ p x).numOfPages = p.numOfPages + 1 := rfl

@[simp] theorem inQ_pagesInMemory (p : Proc) (x : Int) :
    (inQ p x).pagesInMemory = p.pagesInMemory := rfl

@[simp] theorem inQ_pagetable (p : Proc) (x : Int) :
    (inQ p x).pagetable = p.pagetable := rfl

@[simp] theorem inQ_pid (p : Proc) (x : Int) : (inQ p x).pid = p.pid := rfl

@[simp] theorem inQ_sz (p : Proc) (x : Int) : (inQ p x).sz = p.sz := rfl

@[simp] theorem inQ_walkOk (p : Proc) (x : Int) : (inQ p x).walkOk = p.walkOk := rfl

theorem inQ_pages (p : Proc) (x : Int) :
    (inQ p x).pages
      = Function.update p.pages (if p.tail = 31 then 0 else p.tail + 1) x := rfl

theorem inQ_tail (p : Proc) (x : Int) :
    (inQ p x).tail = if p.tail = 31 then 0 else p.tail + 1 := rfl

@[simp] theorem outQ_data (p : Proc) : (outQ p).data = p.data := rfl

@[simp] theorem outQ_pages (p : Proc) : (outQ p).pages = p.pages := rfl

@[simp] theorem outQ_tail (p : Proc) : (outQ p).tail = p.tail := rfl

@[simp] theorem outQ_numOfPages (p : Proc) :
    (outQ p).numOfPages = p.numOfPages - 1 := rfl

@[simp] theorem outQ_pagesInMemory (p : Proc) :
    (outQ p).pagesInMemory = p.pagesInMemory := rfl

@[simp] theorem outQ_pagetable (p : Proc) : (outQ p).pagetable = p.pagetable := rfl

@[simp] theorem outQ_pid (p : Proc) : (outQ p).pid = p.pid := rfl

@[simp] theorem outQ_sz (p : Proc) : (outQ p).sz = p.sz := rfl

@[simp] theorem outQ_walkOk (p : Proc) : (outQ p).walkOk = p.walkOk := rfl

theorem outQ_head (p : Proc) :
    (outQ p).head = if p.head = 31 then 0 else p.head + 1 := rfl

theorem queueList_length (p : Proc) :
    (queueList p).length = p.numOfPages.toNat := by
  simp [queueList]

theorem wfQ_inQ (p : Proc) (x : Int) (h : wfQ p) (hn : p.numOfPages < 32) :
    wfQ (inQ p x) := by
  obtain ⟨h1, h2, h3, h4, h5⟩ := h
  unfold wfQ
  rw [inQ_head, inQ_numOfPages, inQ_tail]
  refine ⟨h1, h2, by omega, by omega, ?_⟩
  split <;> omega

theorem wfQ_outQ (p : Proc) (h : wfQ p) (hn : 0 < p.numOfPages) :
    wfQ (outQ p) := by
  obtain ⟨h1, h2, h3, h4, h5⟩ := h
  unfold wfQ
  rw [outQ_head, outQ_numOfPages, outQ_tail]
  have hh : (if p.head = (31 : Int) then (0 : Int) else p.head + 1)
      = (p.head + 1) % 32 := by split <;> omega
  rw [hh]
  refine ⟨by omega, by omega, by omega, by omega, by omega⟩

theorem queueList_inQ (p : Proc) (x : Int) (h : wfQ p)
    (hn : p.numOfPages < 32) :
    queueList (inQ p x) = queueList p ++ [x] := by
  obtain ⟨h1, h2, h3, h4, h5⟩ := h
  have ht : (if p.tail = (31 : Int) then (0 : Int) else p.tail + 1)
      = (p.head + p.numOfPages) % 32 := by split <;> omega
  have hnum : (p.numOfPages + 1).toNat = p.numOfPages.toNat + 1 := by omega
  unfold queueList
  rw [inQ_numOfPages, inQ_head, inQ_pages, ht, hnum, List.range_succ,
    List.map_append]
  congr 1
  · refine List.map_congr_left ?_
    intro k hk
    rw [List.mem_range] at hk
    apply Function.update_noteq
    have hk2 : (k : Int) < p.numOfPages := by omega
    omega
  · simp only [List.map_cons, List.map_nil]
    have hc : ((p.numOfPages.toNat : Nat) : Int) = p.numOfPages := by omega
    rw [hc, Function.update_same]

theorem queueList_cons (p : Proc) (h : wfQ p) (hn : 0 < p.numOfPages) :
    queueList p = p.pages p.head :: queueList (outQ p) := by
  obtain ⟨h1, h2, h3, h4, h5⟩ := h
  have hh : (if p.head = (31 : Int) then (0 : Int) else p.head + 1)
      = (p.head + 1) % 32 := by split <;> omega
  have hm : p.numOfPages.toNat = (p.numOfPages - 1).toNat + 1 := by omega
  unfold queueList
  rw [outQ_numOfPages, outQ_head, outQ_pages, hh, hm, List.range_succ_eq_map,
    List.map_cons, List.map_map]
  congr 1
  · congr 1
    push_cast
    omega
  · refine List.map_congr_left ?_
    intro k _
    simp only [Function.comp]
    congr 1
    push_cast
    omega

theorem queueList_outQ (p : Proc) (h : wfQ p) (hn : 0 < p.numOfPages) :
    queueList (outQ p) = (queueList p).tail := by
  rw [queueList_cons p h hn]
  rfl

theorem pages_head_eq_headI (p : Proc) (h : wfQ p) (hn : 0 < p.numOfPages) :
    p.pages p.head = (queueList p).headI := by
  rw [queueList_cons p h hn]
  rfl

theorem queueList_nil (p : Proc) (hn : p.numOfPages ≤ 0) :
    queueList p = [] := by
  unfold queueList
  have : p.numOfPages.toNat = 0 := by omega
  rw [this]
  rfl

/-! Characterization of the rotation loops (removePage and scfifo). -/

/-- Left rotation of a list by k positions. -/
def rotL (L : List Int) (k : Nat) : List Int := L.drop k ++ L.take k

theorem rotL_zero (L : List Int) : rotL L 0 = L := by simp [rotL]

theorem rotL_full (L : List Int) : rotL L L.length = L := by simp [rotL]

theorem rotL_perm (L : List Int) (k : Nat) : List.Perm (rotL L k) L := by
  have h1 : List.Perm (rotL L k) (L.take k ++ L.drop k) := List.perm_append_comm
  rw [List.take_append_drop k L] at h1
  exact h1

theorem rotL_cons (h : Int) (T : List Int) (k : Nat) (hk : k ≤ T.length) :
    rotL (h :: T) (k + 1) = rotL (T ++ [h]) k := by
  unfold rotL
  rw [List.drop_append_eq_append_drop, List.take_append_eq_append_take]
  have h1 : k - T.length = 0 := by omega
  simp [h1]

/-- Relation: all process fields outside the queue and the page table agree
(the rotation loops touch only the queue, scfifo also accessed bits). -/
def sameMeta (p q : Proc) : Prop :=
  q.data = p.data ∧ q.pagesInMemory = p.pagesInMemory ∧ q.pid = p.pid ∧
    q.sz = p.sz ∧ q.walkOk = p.walkOk

theorem sameMeta_refl (p : Proc) : sameMeta p p := ⟨rfl, rfl, rfl, rfl, rfl⟩

theorem sameMeta_trans {p q r : Proc} (h1 : sameMeta p q) (h2 : sameMeta q r) :
    sameMeta p r := by
  obtain ⟨a1, a2, a3, a4, a5⟩ := h1
  obtain ⟨b1, b2, b3, b4, b5⟩ := h2
  exact ⟨b1.trans a1, b2.trans a2, b3.trans a3, b4.trans a4, b5.trans a5⟩

theorem sameMeta_inQ (p : Proc) (x : Int) : sameMeta p (inQ p x) :=
  ⟨rfl, rfl, rfl, rfl, rfl⟩

theorem sameMeta_outQ (p : Proc) : sameMeta p (outQ p) :=
  ⟨rfl, rfl, rfl, rfl, rfl⟩

/-- Behavior of the removePage loop when the target is not in the queue:
the remaining iterations rotate the queue left and change nothing else. -/
theorem rm_notmem : ∀ (r : Nat) (p : Proc) (t i : Int) (fuel : Nat),
    wfQ p → t ∉ queueList p → 0 ≤ i → (p.numOfPages - i).toNat = r →
    r ≤ fuel →
    sameMeta p (rmLoop p t i fuel) ∧
      (rmLoop p t i fuel).pagetable = p.pagetable ∧
      wfQ (rmLoop p t i fuel) ∧
      queueList (rmLoop p t i fuel) = rotL (queueList p) r := by
  intro r
  induction r with
  | zero =>
    intro p t i fuel hw hm hi hr hf
    have hge : ¬ i < p.numOfPages := by omega
    cases fuel with
    | zero =>
      refine ⟨sameMeta_refl p, rfl, hw, ?_⟩
      exact (rotL_zero _).symm
    | succ f =>
      simp only [rmLoop, hge, if_false]
      refine ⟨sameMeta_refl p, by trivial, hw, ?_⟩
      exact (rotL_zero _).symm
  | succ s ih =>
    intro p t i fuel hw hm hi hr hf
    have hlt : i < p.numOfPages := by omega
    have hpos : 0 < p.numOfPages := by omega
    obtain ⟨w1, w2, w3, w4, w5⟩ := hw
    have hw' : wfQ p := ⟨w1, w2, w3, w4, w5⟩
    cases fuel with
    | zero => omega
    | succ f =>
      have hcons := queueList_cons p hw' hpos
      have hhead : p.pages p.head ∈ queueList p := by
        rw [hcons]; exact List.mem_cons_self _ _
      have hne : p.pages p.head ≠ t := by
        intro hcontra; exact hm (hcontra ▸ hhead)
      simp only [rmLoop, hlt, if_true, hne, ne_eq, not_false_eq_true, if_true]
      set p2 := inQ (outQ p) (p.pages p.head) with hp2
      have hwout : wfQ (outQ p) := wfQ_outQ p hw' hpos
      have hwp2 : wfQ p2 := wfQ_inQ _ _ hwout (by simp; omega)
      have hq2 : queueList p2 = (queueList (outQ p)) ++ [p.pages p.head] :=
        queueList_inQ _ _ hwout (by simp; omega)
      have hqout : queueList (outQ p) = (queueList p).tail :=
        queueList_outQ p hw' hpos
      have hnum2 : p2.numOfPages = p.numOfPages := by simp [hp2]
      have hm2 : t ∉ queueList p2 := by
        rw [hq2, hqout, hcons]
        simp only [List.tail_cons, List.mem_append, List.mem_singleton]
        rintro (hA | hB)
        · exact hm (by rw [hcons]; exact List.mem_cons_of_mem _ hA)
        · exact hne hB.symm
      obtain ⟨m1, m2, m3, m4⟩ := ih p2 t (i + 1) f hwp2 hm2 (by omega)
        (by rw [hnum2]; omega) (by omega)
      refine ⟨sameMeta_trans (sameMeta_trans (sameMeta_outQ p)
        (sameMeta_inQ (outQ p) (p.pages p.head))) m1, ?_, m3, ?_⟩
      · rw [m2]; simp [hp2]
      · rw [m4, hq2, hcons]
        have hlen : s ≤ (queueList (outQ p)).length := by
          rw [queueList_length]
          simp only [outQ_numOfPages]
          omega
        exact (rotL_cons _ _ s hlen).symm

/-- Behavior of the removePage loop from the moment the scan front is the
list A, the target t, then C: the target is dropped, and the survivors end
up rotated. -/
theorem rm_found : ∀ (A : List Int) (p : Proc) (t i : Int) (C : List Int)
    (fuel : Nat),
    wfQ p → queueList p = A ++ t :: C → t ∉ A → t ∉ C → 0 ≤ i →
    i ≤ (C.length : Int) →
    ((A.length : Int) + C.length - i + 1) ≤ fuel →
    sameMeta p (rmLoop p t i fuel) ∧
      (rmLoop p t i fuel).pagetable = p.pagetable ∧
      wfQ (rmLoop p t i fuel) ∧
      queueList (rmLoop p t i fuel)
        = rotL (C ++ A) (((C.length : Int) - i - 1).toNat) := by
  intro A
  induction A with
  | nil =>
    intro p t i C fuel hw hsplit hA hC hi hiC hf
    have hlen := queueList_length p
    rw [hsplit] at hlen
    simp only [List.nil_append, List.length_cons] at hlen
    have hpos : 0 < p.numOfPages := by omega
    have hlt : i < p.numOfPages := by omega
    cases fuel with
    | zero => simp at hf; omega
    | succ f =>
      have hhead : p.pages p.head = t := by
        have := pages_head_eq_headI p hw hpos
        rw [hsplit] at this
        simpa using this
      simp only [rmLoop, hlt, if_true, hhead, ne_eq, not_true_eq_false,
        if_false]
      have hqout : queueList (outQ p) = C := by
        rw [queueList_outQ p hw hpos, hsplit]
        simp
      have hwout : wfQ (outQ p) := wfQ_outQ p hw hpos
      obtain ⟨m1, m2, m3, m4⟩ := rm_notmem
        (((outQ p).numOfPages - (i + 1)).toNat) (outQ p) t (i + 1) f hwout
        (by rw [hqout]; exact hC) (by omega) rfl
        (by simp only [outQ_numOfPages]; omega)
      refine ⟨sameMeta_trans (sameMeta_outQ p) m1, by rw [m2]; rfl, m3, ?_⟩
      rw [m4, hqout]
      have hnum : (outQ p).numOfPages = p.numOfPages - 1 := by simp
      have hexp : ((outQ p).numOfPages - (i + 1)).toNat
          = (((C.length : Int)) - i - 1).toNat := by
        rw [hnum]; omega
      rw [hexp, List.append_nil]
  | cons a A' ihA =>
    intro p t i C fuel hw hsplit hA hC hi hiC hf
    have hlen := queueList_length p
    rw [hsplit] at hlen
    simp only [List.cons_append, List.length_cons, List.length_append,
      List.length_cons] at hlen
    have hpos : 0 < p.numOfPages := by omega
    have hlt : i < p.numOfPages := by omega
    cases fuel with
    | zero => simp at hf; omega
    | succ f =>
      have hsplit' : queueList p = a :: (A' ++ t :: C) := by
        rw [hsplit]; rfl
      have hhead : p.pages p.head = a := by
        have := pages_head_eq_headI p hw hpos
        rw [hsplit'] at this
        simpa using this
      have hne : p.pages p.head ≠ t := by
        rw [hhead]
        intro hcontra
        exact hA (by rw [hcontra]; exact List.mem_cons_self _ _)
      simp only [rmLoop, hlt, if_true, hne, ne_eq, not_false_eq_true,
        if_true]
      set p2 := inQ (outQ p) (p.pages p.head) with hp2
      have hwout : wfQ (outQ p) := wfQ_outQ p hw hpos
      obtain ⟨w1, w2, w3, w4, w5⟩ := hw
      simp only [List.length_cons] at hf
      have hwp2 : wfQ p2 := wfQ_inQ _ _ hwout (by simp; omega)
      have hq2 : queueList p2 = A' ++ t :: (C ++ [a]) := by
        rw [hp2, hhead, queueList_inQ _ _ hwout (by simp; omega),
          queueList_outQ p ⟨w1, w2, w3, w4, w5⟩ hpos, hsplit']
        simp only [List.tail_cons, List.append_assoc, List.cons_append,
          List.nil_append]
      have hmemA : t ∉ A' := fun hx => hA (List.mem_cons_of_mem _ hx)
      have hmemC : t ∉ C ++ [a] := by
        simp only [List.mem_append, List.mem_singleton]
        rintro (hx | hx)
        · exact hC hx
        · exact hA (by rw [hx]; exact List.mem_cons_self _ _)
      obtain ⟨m1, m2, m3, m4⟩ := ihA p2 t (i + 1) (C ++ [a]) f hwp2 hq2
        hmemA hmemC (by omega)
        (by simp only [List.length_append, List.length_singleton]; push_cast; omega)
        (by simp only [List.length_append, List.length_singleton]; push_cast; omega)
      refine ⟨sameMeta_trans (sameMeta_trans (sameMeta_outQ p)
        (sameMeta_inQ (outQ p) (p.pages p.head))) m1, ?_, m3, ?_⟩
      · rw [m2]; simp [hp2]
      · rw [m4]
        have hexp : (((C ++ [a]).length : Int) - (i + 1) - 1).toNat
            = (((C.length : Int)) - i - 1).toNat := by
          simp only [List.length_append, List.length_singleton]
          push_cast
          omega
        rw [hexp]
        congr 1
        simp [List.append_assoc]

theorem removePage_notmem (p : Proc) (t : Int) (h : wfQ p)
    (hm : t ∉ queueList p) :
    sameMeta p (removePage p t) ∧ (removePage p t).pagetable = p.pagetable ∧
      wfQ (removePage p t) ∧ queueList (removePage p t) = queueList p := by
  have h3 : 0 ≤ p.numOfPages := h.2.2.1
  unfold removePage
  obtain ⟨m1, m2, m3, m4⟩ := rm_notmem p.numOfPages.toNat p t 0
    (p.numOfPages.toNat + 1) h hm le_rfl (by omega) (by omega)
  refine ⟨m1, m2, m3, ?_⟩
  rw [m4, ← queueList_length p, rotL_full]

theorem removePage_found (p : Proc) (t : Int) (A C : List Int) (h : wfQ p)
    (hsplit : queueList p = A ++ t :: C) (hA : t ∉ A) (hC : t ∉ C) :
    sameMeta p (removePage p t) ∧ (removePage p t).pagetable = p.pagetable ∧
      wfQ (removePage p t) ∧
      queueList (removePage p t) = rotL (C ++ A) (C.length - 1) := by
  have hlen := queueList_length p
  rw [hsplit] at hlen
  simp only [List.length_append, List.length_cons] at hlen
  have h3 : 0 ≤ p.numOfPages := h.2.2.1
  unfold removePage
  obtain ⟨m1, m2, m3, m4⟩ := rm_found A p t 0 C (p.numOfPages.toNat + 1) h
    hsplit hA hC le_rfl (by push_cast; omega) (by push_cast; omega)
  refine ⟨m1, m2, m3, ?_⟩
  rw [m4]
  congr 1
  omega

theorem removePage_mem_perm (p : Proc) (t : Int) (h : wfQ p)
    (hnd : (queueList p).Nodup) (hm : t ∈ queueList p) :
    sameMeta p (removePage p t) ∧ (removePage p t).pagetable = p.pagetable ∧
      wfQ (removePage p t) ∧
      List.Perm (queueList (removePage p t)) ((queueList p).erase t) := by
  obtain ⟨A, C, hsplit⟩ := List.append_of_mem hm
  have hnd' := hnd
  rw [hsplit, List.nodup_append] at hnd'
  obtain ⟨hndA, hndTC, hdis⟩ := hnd'
  have hA : t ∉ A := fun hx => (hdis hx (List.mem_cons_self _ _))
  have hC : t ∉ C := by
    have := hndTC
    rw [List.nodup_cons] at this
    exact this.1
  obtain ⟨m1, m2, m3, m4⟩ := removePage_found p t A C h hsplit hA hC
  refine ⟨m1, m2, m3, ?_⟩
  rw [m4, hsplit, List.erase_append_right _ hA, List.erase_cons_head]
  exact (rotL_perm _ _).trans (List.perm_append_comm)

/-! Bit-level helpers for the PTE masks the code builds with C complement. -/

theorem PTE_V_eq : PTE_V = 2 ^ 0 := by decide

theorem PTE_A_eq : PTE_A = 2 ^ 6 := by decide

theorem PTE_PG_eq : PTE_PG = 2 ^ 9 := by decide

theorem testBit_U64MASK (b : Nat) : U64MASK.testBit b = decide (b < 64) := by
  have h : U64MASK = 2 ^ 64 - 1 := rfl
  rw [h, Nat.testBit_two_pow_sub_one]

theorem testBit_maskA (b : Nat) (hb : b < 64) (hne : b ≠ 6) :
    (U64MASK ^^^ PTE_A).testBit b = true := by
  rw [Nat.testBit_xor, testBit_U64MASK, PTE_A_eq, Nat.testBit_two_pow]
  have h6 : ¬ (6 = b) := by omega
  simp [hb, h6]

theorem testBit_maskA_self : (U64MASK ^^^ PTE_A).testBit 6 = false := by
  rw [Nat.testBit_xor, testBit_U64MASK, PTE_A_eq, Nat.testBit_two_pow]
  simp

theorem testBit_maskV (b : Nat) (hb : b < 64) (hne : b ≠ 0) :
    (U64MASK ^^^ PTE_V).testBit b = true := by
  rw [Nat.testBit_xor, testBit_U64MASK, PTE_V_eq, Nat.testBit_two_pow]
  have h0 : ¬ (0 = b) := by omega
  simp [hb, h0]

theorem testBit_maskV_self : (U64MASK ^^^ PTE_V).testBit 0 = false := by
  rw [Nat.testBit_xor, testBit_U64MASK, PTE_V_eq, Nat.testBit_two_pow]
  simp

theorem testBit_maskPG (b : Nat) (hb : b < 64) (hne : b ≠ 9) :
    (U64MASK ^^^ PTE_PG).testBit b = true := by
  rw [Nat.testBit_xor, testBit_U64MASK, PTE_PG_eq, Nat.testBit_two_pow]
  have h9 : ¬ (9 = b) := by omega
  simp [hb, h9]

theorem testBit_maskPG_self : (U64MASK ^^^ PTE_PG).testBit 9 = false := by
  rw [Nat.testBit_xor, testBit_U64MASK, PTE_PG_eq, Nat.testBit_two_pow]
  simp

theorem testBit_PA2PTE_low (pa : Nat) (b : Nat) (hb : b < 10) :
    (PA2PTE pa).testBit b = false := by
  unfold PA2PTE
  rw [Nat.testBit_shiftLeft]
  have : (10 ≤ b) = False := by simp; omega
  simp [this]

/-- Pointwise description of the victim PTE written by page_to_file:
valid cleared, paged-out set, and every other bit below 64 preserved. -/
theorem pte_out_bits (pte : Nat) :
    (((pte &&& (U64MASK ^^^ PTE_V)) ||| PTE_PG).testBit 0 = false) ∧
    (((pte &&& (U64MASK ^^^ PTE_V)) ||| PTE_PG).testBit 9 = true) ∧
    (∀ b : Nat, b < 64 → b ≠ 0 → b ≠ 9 →
      ((pte &&& (U64MASK ^^^ PTE_V)) ||| PTE_PG).testBit b = pte.testBit b) := by
  refine ⟨?_, ?_, ?_⟩
  · rw [Nat.testBit_or, Nat.testBit_and, testBit_maskV_self, PTE_PG_eq,
      Nat.testBit_two_pow]
    simp
  · rw [Nat.testBit_or, PTE_PG_eq, Nat.testBit_two_pow]
    simp
  · intro b hb h0 h9
    rw [Nat.testBit_or, Nat.testBit_and, testBit_maskV b hb h0, PTE_PG_eq,
      Nat.testBit_two_pow]
    have h9' : ¬ (9 = b) := by omega
    simp [h9']

/-- A PTE has a zero valid-bit test exactly when bit 0 is clear. -/
theorem and_PTE_V (x : Nat) : x &&& PTE_V = 0 ↔ x.testBit 0 = false := by
  have h : PTE_V = 2 ^ 0 := rfl
  rw [h, Nat.and_two_pow]
  cases hb : x.testBit 0 <;> simp [hb]

/-! Characterization of the scfifo loop. -/

theorem scfLoop_mem : ∀ (r : Nat) (p : Proc) (i : Int) (fuel : Nat),
    wfQ p → (queueList p).Nodup → 0 < p.numOfPages → 0 ≤ i →
    (i + (r : Int)) = p.numOfPages → r < fuel →
    (scfLoop p i fuel).1 ∈ queueList p ∧
      sameMeta p (scfLoop p i fuel).2 ∧
      wfQ (scfLoop p i fuel).2 ∧
      (scfLoop p i fuel).2.numOfPages = p.numOfPages - 1 ∧
      List.Perm (queueList (scfLoop p i fuel).2)
        ((queueList p).erase (scfLoop p i fuel).1) ∧
      (∀ (y : Int) (b : Nat), b < 64 → b ≠ 6 →
        ((scfLoop p i fuel).2.pagetable y).testBit b
          = (p.pagetable y).testBit b) := by
  intro r
  induction r with
  | zero =>
    intro p i fuel hw hnd hpos hi hr hf
    have hge : ¬ i < p.numOfPages := by omega
    have hcons := queueList_cons p hw hpos
    cases fuel with
    | zero => omega
    | succ f =>
      simp only [scfLoop, hge, if_false]
      refine ⟨?_, sameMeta_outQ p, wfQ_outQ p hw hpos, ?_, ?_, ?_⟩
      · show p.pages p.head ∈ queueList p
        rw [hcons]
        exact List.mem_cons_self _ _
      · show (outQ p).numOfPages = p.numOfPages - 1
        simp
      · show List.Perm (queueList (outQ p))
          ((queueList p).erase (p.pages p.head))
        rw [hcons, List.erase_cons_head, queueList_outQ p hw hpos, hcons]
      · intro y b _ _
        rfl
  | succ s ih =>
    intro p i fuel hw hnd hpos hi hr hf
    have hlt : i < p.numOfPages := by omega
    have hcons := queueList_cons p hw hpos
    have hnum32 : p.numOfPages ≤ 32 := hw.2.2.2.1
    cases fuel with
    | zero => omega
    | succ f =>
      by_cases ha0 : p.pagetable (p.pages p.head) &&& PTE_A = 0
      · simp only [scfLoop, hlt, if_true, ne_eq, ha0, not_true_eq_false,
          if_false]
        refine ⟨?_, sameMeta_outQ p, wfQ_outQ p hw hpos, ?_, ?_, ?_⟩
        · show p.pages p.head ∈ queueList p
          rw [hcons]
          exact List.mem_cons_self _ _
        · show (outQ p).numOfPages = p.numOfPages - 1
          simp
        · show List.Perm (queueList (outQ p))
            ((queueList p).erase (p.pages p.head))
          rw [hcons, List.erase_cons_head, queueList_outQ p hw hpos, hcons]
        · intro y b _ _
          rfl
      · simp only [scfLoop, hlt, if_true, ne_eq, ha0, not_false_eq_true,
          if_true]
        set p1 : Proc := { p with
          pagetable := Function.update p.pagetable (p.pages p.head)
            (p.pagetable (p.pages p.head) &&& (U64MASK ^^^ PTE_A)) } with hp1
        set q : Proc := inQ (outQ p1) (p.pages p.head) with hq
        have hq1 : queueList p1 = queueList p := rfl
        have hw1 : wfQ p1 := hw
        have hwout : wfQ (outQ p1) := wfQ_outQ p1 hw1 hpos
        have houtlt : (outQ p1).numOfPages < 32 := by
          have : (outQ p1).numOfPages = p.numOfPages - 1 := rfl
          omega
        have hqout : queueList (outQ p1) = (queueList p).tail := by
          rw [queueList_outQ p1 hw1 hpos, hq1]
        have hwq : wfQ q := wfQ_inQ _ _ hwout houtlt
        have hqlist : queueList q = (queueList p).tail ++ [p.pages p.head] := by
          rw [hq, queueList_inQ _ _ hwout houtlt, hqout]
        have hqnum : q.numOfPages = p.numOfPages := by simp [hq]
        have htail : (queueList p).tail = queueList (outQ p) :=
          (queueList_outQ p hw hpos).symm
        have hcons' : queueList p = p.pages p.head :: (queueList p).tail := by
          rw [htail]
          exact hcons
        have hndq : (queueList q).Nodup := by
          rw [hqlist]
          refine ((List.perm_append_singleton _ _).nodup_iff).mpr ?_
          rw [← hcons']
          exact hnd
        obtain ⟨m1, m2, m3, m4, m5, m6⟩ := ih q (i + 1) f hwq hndq
          (by omega) (by omega) (by rw [hqnum]; omega) (by omega)
        have hperm : List.Perm (queueList q) (queueList p) := by
          rw [hqlist]
          have := List.perm_append_singleton (p.pages p.head)
            ((queueList p).tail)
          rw [← hcons'] at this
          exact this
        refine ⟨hperm.mem_iff.mp m1, ?_, m3, by rw [m4, hqnum], ?_, ?_⟩
        · refine sameMeta_trans ?_ m2
          exact sameMeta_trans (sameMeta_trans ⟨rfl, rfl, rfl, rfl, rfl⟩
            (sameMeta_outQ p1)) (sameMeta_inQ (outQ p1) (p.pages p.head))
        · exact m5.trans (hperm.erase _)
        · intro y b hb h6
          rw [m6 y b hb h6]
          by_cases hy : y = p.pages p.head
          · have hqy : q.pagetable y
                = p.pagetable (p.pages p.head) &&& (U64MASK ^^^ PTE_A) := by
              show p1.pagetable y = _
              rw [hp1, hy]
              exact Function.update_same _ _ _
            rw [hqy, hy, Nat.testBit_and, testBit_maskA b hb h6, Bool.and_true]
          · have hqy : q.pagetable y = p.pagetable y := by
              show p1.pagetable y = _
              rw [hp1]
              exact Function.update_noteq hy _ _
            rw [hqy]

theorem take_append_small (T : List Int) (h : Int) (r : Nat)
    (hr : r ≤ T.length) : (T ++ [h]).take r = T.take r := by
  rw [List.take_append_eq_append_take]
  have h0 : r - T.length = 0 := by omega
  simp [h0]

/-- Behavior of the scfifo loop when every page it will inspect has the
accessed bit set: a full rotation clears the bits, then the original head
is dequeued and returned. -/
theorem scfLoop_allA : ∀ (r : Nat) (p : Proc) (i : Int) (fuel : Nat),
    wfQ p → (queueList p).Nodup → 0 < p.numOfPages → 0 ≤ i →
    (i + (r : Int)) = p.numOfPages → r < fuel →
    (∀ x ∈ (queueList p).take r, p.pagetable x &&& PTE_A ≠ 0) →
    (scfLoop p i fuel).1 = (rotL (queueList p) r).headI ∧
      sameMeta p (scfLoop p i fuel).2 ∧
      wfQ (scfLoop p i fuel).2 ∧
      (scfLoop p i fuel).2.numOfPages = p.numOfPages - 1 ∧
      queueList (scfLoop p i fuel).2 = (rotL (queueList p) r).tail ∧
      (∀ y : Int, (scfLoop p i fuel).2.pagetable y
        = if y ∈ (queueList p).take r then
            p.pagetable y &&& (U64MASK ^^^ PTE_A)
          else p.pagetable y) := by
  intro r
  induction r with
  | zero =>
    intro p i fuel hw hnd hpos hi hr hf hA
    have hge : ¬ i < p.numOfPages := by omega
    cases fuel with
    | zero => omega
    | succ f =>
      simp only [scfLoop, hge, if_false]
      refine ⟨?_, sameMeta_outQ p, wfQ_outQ p hw hpos, ?_, ?_, ?_⟩
      · show p.pages p.head = (rotL (queueList p) 0).headI
        rw [rotL_zero]
        exact pages_head_eq_headI p hw hpos
      · show (outQ p).numOfPages = p.numOfPages - 1
        simp
      · show queueList (outQ p) = (rotL (queueList p) 0).tail
        rw [rotL_zero]
        exact queueList_outQ p hw hpos
      · intro y
        simp only [List.take_zero, List.not_mem_nil, if_false]
        rfl
  | succ s ih =>
    intro p i fuel hw hnd hpos hi hr hf hA
    have hlt : i < p.numOfPages := by omega
    have hcons := queueList_cons p hw hpos
    have hnum32 : p.numOfPages ≤ 32 := hw.2.2.2.1
    have hlen := queueList_length p
    have htail : (queueList p).tail = queueList (outQ p) :=
      (queueList_outQ p hw hpos).symm
    have hcons' : queueList p = p.pages p.head :: (queueList p).tail := by
      rw [htail]
      exact hcons
    have htake : (queueList p).take (s + 1)
        = p.pages p.head :: ((queueList p).tail).take s := by
      conv_lhs => rw [hcons']
      rw [List.take_succ_cons]
    have hheadA : p.pagetable (p.pages p.head) &&& PTE_A ≠ 0 := by
      apply hA
      rw [htake]
      exact List.mem_cons_self _ _
    have hstail : s ≤ ((queueList p).tail).length := by
      rw [htail, queueList_length]
      simp only [outQ_numOfPages]
      omega
    cases fuel with
    | zero => omega
    | succ f =>
      have ha0 : ¬ p.pagetable (p.pages p.head) &&& PTE_A = 0 := hheadA
      simp only [scfLoop, hlt, if_true, ne_eq, ha0, not_false_eq_true,
        if_true]
      set p1 : Proc := { p with
        pagetable := Function.update p.pagetable (p.pages p.head)
          (p.pagetable (p.pages p.head) &&& (U64MASK ^^^ PTE_A)) } with hp1
      set q : Proc := inQ (outQ p1) (p.pages p.head) with hq
      have hq1 : queueList p1 = queueList p := rfl
      have hw1 : wfQ p1 := hw
      have hwout : wfQ (outQ p1) := wfQ_outQ p1 hw1 hpos
      have houtlt : (outQ p1).numOfPages < 32 := by
        have : (outQ p1).numOfPages = p.numOfPages - 1 := rfl
        omega
      have hqout : queueList (outQ p1) = (queueList p).tail := by
        rw [queueList_outQ p1 hw1 hpos, hq1]
      have hwq : wfQ q := wfQ_inQ _ _ hwout houtlt
      have hqlist : queueList q = (queueList p).tail ++ [p.pages p.head] := by
        rw [hq, queueList_inQ _ _ hwout houtlt, hqout]
      have hqnum : q.numOfPages = p.numOfPages := by simp [hq]
      have hndq : (queueList q).Nodup := by
        rw [hqlist]
        refine ((List.perm_append_singleton _ _).nodup_iff).mpr ?_
        rw [← hcons']
        exact hnd
      have hheadnotail : p.pages p.head ∉ (queueList p).tail := by
        have := hnd
        rw [hcons'] at this
        exact (List.nodup_cons.mp this).1
      have hqtake : (queueList q).take s = ((queueList p).tail).take s := by
        rw [hqlist]
        exact take_append_small _ _ _ hstail
      have hqpt : ∀ z : Int, z ≠ p.pages p.head →
          q.pagetable z = p.pagetable z := by
        intro z hz
        show p1.pagetable z = _
        rw [hp1]
        exact Function.update_noteq hz _ _
      have hqptHead : q.pagetable (p.pages p.head)
          = p.pagetable (p.pages p.head) &&& (U64MASK ^^^ PTE_A) := by
        show p1.pagetable _ = _
        rw [hp1]
        exact Function.update_same _ _ _
      obtain ⟨m1, m2, m3, m4, m5, m6⟩ := ih q (i + 1) f hwq hndq
        (by omega) (by omega) (by rw [hqnum]; omega) (by omega)
        (by
          intro x hx
          rw [hqtake] at hx
          have hxne : x ≠ p.pages p.head := by
            intro hcontra
            exact hheadnotail (hcontra ▸ List.mem_of_mem_take hx)
          rw [hqpt x hxne]
          apply hA
          rw [htake]
          exact List.mem_cons_of_mem _ hx)
      have hrot : rotL (queueList p) (s + 1) = rotL (queueList q) s := by
        rw [hqlist, hcons']
        exact rotL_cons _ _ s hstail
      refine ⟨?_, ?_, m3, by rw [m4, hqnum], ?_, ?_⟩
      · rw [m1, hrot]
      · refine sameMeta_trans ?_ m2
        exact sameMeta_trans (sameMeta_trans ⟨rfl, rfl, rfl, rfl, rfl⟩
          (sameMeta_outQ p1)) (sameMeta_inQ (outQ p1) (p.pages p.head))
      · rw [m5, hrot]
      · intro y
        rw [m6 y, hqtake, htake]
        by_cases hy : y = p.pages p.head
        · have hynot : p.pages p.head ∉ ((queueList p).tail).take s := by
            intro hcontra
            exact hheadnotail (List.mem_of_mem_take hcontra)
          rw [hy, if_neg hynot, if_pos (List.mem_cons_self _ _)]
          exact hqptHead
        · rw [hqpt y hy]
          by_cases hmem : y ∈ ((queueList p).tail).take s
          · rw [if_pos hmem, if_pos (List.mem_cons_of_mem _ hmem)]
          · have hnotc : y ∉ (p.pages p.head :: ((queueList p).tail).take s) := by
              simp only [List.mem_cons]
              push_neg
              exact ⟨hy, hmem⟩
            rw [if_neg hmem, if_neg hnotc]

theorem scfifo_mem_spec (p : Proc) (hw : wfQ p) (hnd : (queueList p).Nodup)
    (hpos : 0 < p.numOfPages) :
    (scfifo p).1 ∈ queueList p ∧ sameMeta p (scfifo p).2 ∧ wfQ (scfifo p).2 ∧
      (scfifo p).2.numOfPages = p.numOfPages - 1 ∧
      List.Perm (queueList (scfifo p).2) ((queueList p).erase (scfifo p).1) ∧
      (∀ (y : Int) (b : Nat), b < 64 → b ≠ 6 →
        ((scfifo p).2.pagetable y).testBit b = (p.pagetable y).testBit b) := by
  have h3 : 0 ≤ p.numOfPages := hw.2.2.1
  unfold scfifo
  exact scfLoop_mem p.numOfPages.toNat p 0 (p.numOfPages.toNat + 1) hw hnd
    hpos (by omega) (by omega) (by omega)

theorem scfifo_allA_spec (p : Proc) (hw : wfQ p) (hnd : (queueList p).Nodup)
    (hpos : 0 < p.numOfPages)
    (hA : ∀ x ∈ queueList p, p.pagetable x &&& PTE_A ≠ 0) :
    (scfifo p).1 = (queueList p).headI ∧ sameMeta p (scfifo p).2 ∧
      wfQ (scfifo p).2 ∧
      (scfifo p).2.numOfPages = p.numOfPages - 1 ∧
      queueList (scfifo p).2 = (queueList p).tail ∧
      (∀ y : Int, (scfifo p).2.pagetable y
        = if y ∈ queueList p then p.pagetable y &&& (U64MASK ^^^ PTE_A)
          else p.pagetable y) := by
  have h3 : 0 ≤ p.numOfPages := hw.2.2.1
  have htake : (queueList p).take p.numOfPages.toNat = queueList p := by
    rw [← queueList_length p]
    exact List.take_length _
  unfold scfifo
  obtain ⟨m1, m2, m3, m4, m5, m6⟩ := scfLoop_allA p.numOfPages.toNat p 0
    (p.numOfPages.toNat + 1) hw hnd hpos (by omega) (by omega) (by omega)
    (by rw [htake]; exact hA)
  have hrot : rotL (queueList p) p.numOfPages.toNat = queueList p := by
    rw [← queueList_length p, rotL_full]
  rw [hrot] at m1 m5
  rw [htake] at m6
  exact ⟨m1, m2, m3, m4, m5, m6⟩

/-! Characterization of the NFUA and LAPA scans. -/

theorem nfuaGo_spec : ∀ (rem i : Nat) (mn : Nat) (idx : Int) (p : Proc),
    i + rem = 32 → 3 ≤ i →
    ((idx = -1 ∧ mn = 2 ^ 31 ∧
        (∀ j : Nat, 3 ≤ j → j < i → (p.data (j : Int)).inUse = true →
          2 ^ 31 ≤ (p.data (j : Int)).agingCounter)) ∨
      (∃ jv : Nat, 3 ≤ jv ∧ jv < i ∧ idx = (jv : Int) ∧
        (p.data (jv : Int)).inUse = true ∧
        (p.data (jv : Int)).agingCounter = mn ∧ mn < 2 ^ 31 ∧
        (∀ j : Nat, 3 ≤ j → j < i → (p.data (j : Int)).inUse = true →
          mn ≤ (p.data (j : Int)).agingCounter) ∧
        (∀ j : Nat, 3 ≤ j → j < jv → (p.data (j : Int)).inUse = true →
          mn < (p.data (j : Int)).agingCounter))) →
    ((nfuaGo p i mn idx rem = -1 ∧
        (∀ j : Nat, 3 ≤ j → j < 32 → (p.data (j : Int)).inUse = true →
          2 ^ 31 ≤ (p.data (j : Int)).agingCounter)) ∨
      (∃ jv : Nat, 3 ≤ jv ∧ jv < 32 ∧ nfuaGo p i mn idx rem = (jv : Int) ∧
        (p.data (jv : Int)).inUse = true ∧
        (p.data (jv : Int)).agingCounter < 2 ^ 31 ∧
        (∀ j : Nat, 3 ≤ j → j < 32 → (p.data (j : Int)).inUse = true →
          (p.data (jv : Int)).agingCounter ≤ (p.data (j : Int)).agingCounter) ∧
        (∀ j : Nat, 3 ≤ j → j < jv → (p.data (j : Int)).inUse = true →
          (p.data (jv : Int)).agingCounter < (p.data (j : Int)).agingCounter))) := by
  intro rem
  induction rem with
  | zero =>
    intro i mn idx p hsum hi hinv
    have h32 : i = 32 := by omega
    subst h32
    rcases hinv with ⟨h1, h2, h3⟩ | ⟨jv, h1, h2, h3, h4, h5, h6, h7, h8⟩
    · exact Or.inl ⟨h1, h3⟩
    · exact Or.inr ⟨jv, h1, h2, h3, h4, by omega, by rw [h5]; exact h7,
        by rw [h5]; exact h8⟩
  | succ rm ih =>
    intro i mn idx p hsum hi hinv
    by_cases hc : (p.data (i : Int)).inUse = true ∧
        (p.data (i : Int)).agingCounter < mn
    · simp only [nfuaGo, if_pos hc]
      apply ih (i + 1) _ _ p (by omega) (by omega)
      right
      have hlt31 : (p.data (i : Int)).agingCounter < 2 ^ 31 := by
        rcases hinv with ⟨_, h2, _⟩ | ⟨jv, _, _, _, _, _, h6, _, _⟩
        · omega
        · omega
      refine ⟨i, hi, by omega, rfl, hc.1, rfl, hlt31, ?_, ?_⟩
      · intro j hj3 hji hju
        rcases Nat.lt_or_ge j i with hji' | hji'
        · rcases hinv with ⟨_, h2, h3⟩ | ⟨jv, _, _, _, _, _, _, h7, _⟩
          · have := h3 j hj3 hji' hju
            omega
          · have := h7 j hj3 hji' hju
            omega
        · have : j = i := by omega
          rw [this]
      · intro j hj3 hji hju
        rcases hinv with ⟨_, h2, h3⟩ | ⟨jv, _, _, _, _, _, _, h7, _⟩
        · have := h3 j hj3 (by omega) hju
          omega
        · have := h7 j hj3 (by omega) hju
          omega
    · simp only [nfuaGo, if_neg hc]
      apply ih (i + 1) _ _ p (by omega) (by omega)
      have hext : (p.data (i : Int)).inUse = true →
          mn ≤ (p.data (i : Int)).agingCounter := by
        intro hu
        by_contra hx
        exact hc ⟨hu, by omega⟩
      rcases hinv with ⟨h1, h2, h3⟩ | ⟨jv, h1, h2, h3, h4, h5, h6, h7, h8⟩
      · left
        refine ⟨h1, h2, ?_⟩
        intro j hj3 hji hju
        rcases Nat.lt_or_ge j i with hji' | hji'
        · exact h3 j hj3 hji' hju
        · have : j = i := by omega
          rw [this] at hju ⊢
          have := hext hju
          omega
      · right
        refine ⟨jv, h1, by omega, h3, h4, h5, h6, ?_, h8⟩
        intro j hj3 hji hju
        rcases Nat.lt_or_ge j i with hji' | hji'
        · exact h7 j hj3 hji' hju
        · have : j = i := by omega
          rw [this] at hju ⊢
          exact hext hju

/-- Full dichotomy for nfua: either no in-use page with index at least 3
has an aging counter below 2^31 and the scan returns -1, or the result is
the least-index in-use page of minimal aging counter. -/
theorem nfua_cases (p : Proc) :
    (nfua p = -1 ∧
        (∀ j : Nat, 3 ≤ j → j < 32 → (p.data (j : Int)).inUse = true →
          2 ^ 31 ≤ (p.data (j : Int)).agingCounter)) ∨
      (∃ jv : Nat, 3 ≤ jv ∧ jv < 32 ∧ nfua p = (jv : Int) ∧
        (p.data (jv : Int)).inUse = true ∧
        (p.data (jv : Int)).agingCounter < 2 ^ 31 ∧
        (∀ j : Nat, 3 ≤ j → j < 32 → (p.data (j : Int)).inUse = true →
          (p.data (jv : Int)).agingCounter ≤ (p.data (j : Int)).agingCounter) ∧
        (∀ j : Nat, 3 ≤ j → j < jv → (p.data (j : Int)).inUse = true →
          (p.data (jv : Int)).agingCounter < (p.data (j : Int)).agingCounter)) := by
  have h : (1 <<< 31 : Nat) = 2 ^ 31 := by decide
  unfold nfua
  rw [h]
  apply nfuaGo_spec 29 3 (2 ^ 31) (-1) p (by omega) (by omega)
  left
  exact ⟨rfl, rfl, fun j hj3 hji _ => absurd hji (by omega)⟩

theorem lapaGo_spec : ∀ (rem i : Nat) (minOnes minAge pageIndex : Int)
    (p : Proc),
    i + rem = 32 → 3 ≤ i →
    ((pageIndex = -1 ∧ minOnes = -1 ∧
        (∀ j : Nat, 3 ≤ j → j < i → (p.data (j : Int)).inUse = false)) ∨
      (∃ jv : Nat, 3 ≤ jv ∧ jv < i ∧ pageIndex = (jv : Int) ∧
        (p.data (jv : Int)).inUse = true ∧ minOnes ≠ -1)) →
    ((lapaGo p i minOnes minAge pageIndex rem = -1 ∧
        (∀ j : Nat, 3 ≤ j → j < 32 → (p.data (j : Int)).inUse = false)) ∨
      (∃ jv : Nat, 3 ≤ jv ∧ jv < 32 ∧
        lapaGo p i minOnes minAge pageIndex rem = (jv : Int) ∧
        (p.data (jv : Int)).inUse = true)) := by
  intro rem
  induction rem with
  | zero =>
    intro i minOnes minAge pageIndex p hsum hi hinv
    have h32 : i = 32 := by omega
    subst h32
    rcases hinv with ⟨h1, _, h3⟩ | ⟨jv, h1, h2, h3, h4, _⟩
    · exact Or.inl ⟨h1, h3⟩
    · exact Or.inr ⟨jv, h1, h2, h3, h4⟩
  | succ rm ih =>
    intro i minOnes minAge pageIndex p hsum hi hinv
    by_cases hu : (p.data (i : Int)).inUse = true
    · simp only [lapaGo, if_pos hu]
      by_cases hcond : minOnes = -1 ∨
          ((countOnes (p.data (i : Int)).agingCounter : Int) < minOnes) ∨
          ((countOnes (p.data (i : Int)).agingCounter : Int) = minOnes ∧
            (p.data (i : Int)).agingCounter < uintOfInt minAge)
      · rw [if_pos hcond]
        apply ih (i + 1) _ _ _ p (by omega) (by omega)
        right
        refine ⟨i, hi, by omega, rfl, hu, ?_⟩
        have : (0 : Int) ≤ (countOnes (p.data (i : Int)).agingCounter : Int) :=
          Int.natCast_nonneg _
        omega
      · rw [if_neg hcond]
        apply ih (i + 1) _ _ _ p (by omega) (by omega)
        rcases hinv with ⟨h1, h2, h3⟩ | ⟨jv, h1, h2, h3, h4, h5⟩
        · exact absurd (Or.inl h2) hcond
        · exact Or.inr ⟨jv, h1, by omega, h3, h4, h5⟩
    · have hu' : (p.data (i : Int)).inUse ≠ true := hu
      simp only [lapaGo, if_neg hu']
      apply ih (i + 1) _ _ _ p (by omega) (by omega)
      rcases hinv with ⟨h1, h2, h3⟩ | ⟨jv, h1, h2, h3, h4, h5⟩
      · left
        refine ⟨h1, h2, ?_⟩
        intro j hj3 hji
        rcases Nat.lt_or_ge j i with hji' | hji'
        · exact h3 j hj3 hji'
        · have : j = i := by omega
          rw [this]
          exact Bool.not_eq_true _ ▸ (by simpa using hu)
      · exact Or.inr ⟨jv, h1, by omega, h3, h4, h5⟩

/-- Dichotomy for lapa: -1 exactly when no page with index at least 3 is in
use; otherwise an in-use page index in the range 3..31. -/
theorem lapa_cases (p : Proc) :
    (lapa p = -1 ∧
        (∀ j : Nat, 3 ≤ j → j < 32 → (p.data (j : Int)).inUse = false)) ∨
      (∃ jv : Nat, 3 ≤ jv ∧ jv < 32 ∧ lapa p = (jv : Int) ∧
        (p.data (jv : Int)).inUse = true) := by
  unfold lapa
  apply lapaGo_spec 29 3 (-1) (-1) (-1) p (by omega) (by omega)
  left
  exact ⟨rfl, rfl, fun j hj3 hji => absurd hji (by omega)⟩

/-! Counting lemmas for the in-use pages. -/

theorem countInUse_congr (p q : Proc)
    (h : ∀ i : Nat, i < 32 → (q.data (i : Int)).inUse = (p.data (i : Int)).inUse) :
    countInUse q = countInUse p := by
  unfold countInUse
  congr 1
  apply Finset.filter_congr
  intro i hi
  rw [Finset.mem_range] at hi
  rw [h i hi]

theorem countInUse_update_false (p q : Proc) (v : Int) (hv0 : 0 ≤ v)
    (hv : v < 32) (hu : (p.data v).inUse = true) (m : PageMeta)
    (hm : m.inUse = false) (hq : q.data = Function.update p.data v m) :
    countInUse q = countInUse p - 1 ∧ 1 ≤ countInUse p := by
  have hn : ((v.toNat : Nat) : Int) = v := by omega
  have hn32 : v.toNat < 32 := by omega
  have hmem : v.toNat ∈ (Finset.range 32).filter
      (fun i : Nat => (p.data (i : Int)).inUse = true) := by
    rw [Finset.mem_filter, Finset.mem_range, hn]
    exact ⟨hn32, hu⟩
  have hfil : (Finset.range 32).filter
        (fun i : Nat => (q.data (i : Int)).inUse = true)
      = ((Finset.range 32).filter
        (fun i : Nat => (p.data (i : Int)).inUse = true)).erase v.toNat := by
    ext i
    simp only [Finset.mem_filter, Finset.mem_erase, Finset.mem_range, hq]
    constructor
    · rintro ⟨hi, hPi⟩
      by_cases hin : i = v.toNat
      · rw [hin, hn, Function.update_same] at hPi
        rw [hPi] at hm
        cases hm
      · have hne : (i : Int) ≠ v := by omega
        rw [Function.update_noteq hne] at hPi
        exact ⟨hin, hi, hPi⟩
    · rintro ⟨hin, hi, hPi⟩
      have hne : (i : Int) ≠ v := by omega
      rw [Function.update_noteq hne]
      exact ⟨hi, hPi⟩
  constructor
  · unfold countInUse
    rw [hfil, Finset.card_erase_of_mem hmem]
  · have : 0 < ((Finset.range 32).filter
        (fun i : Nat => (p.data (i : Int)).inUse = true)).card :=
      Finset.card_pos.mpr ⟨v.toNat, hmem⟩
    unfold countInUse
    omega

theorem countInUse_update_true (p q : Proc) (v : Int) (hv0 : 0 ≤ v)
    (hv : v < 32) (hu : (p.data v).inUse = false) (m : PageMeta)
    (hm : m.inUse = true) (hq : q.data = Function.update p.data v m) :
    countInUse q = countInUse p + 1 := by
  have hn : ((v.toNat : Nat) : Int) = v := by omega
  have hn32 : v.toNat < 32 := by omega
  have hnot : v.toNat ∉ (Finset.range 32).filter
      (fun i : Nat => (p.data (i : Int)).inUse = true) := by
    rw [Finset.mem_filter, Finset.mem_range, hn]
    intro hc
    rw [hc.2] at hu
    cases hu
  have hfil : (Finset.range 32).filter
        (fun i : Nat => (q.data (i : Int)).inUse = true)
      = insert v.toNat ((Finset.range 32).filter
        (fun i : Nat => (p.data (i : Int)).inUse = true)) := by
    ext i
    simp only [Finset.mem_filter, Finset.mem_insert, Finset.mem_range, hq]
    constructor
    · rintro ⟨hi, hPi⟩
      by_cases hin : i = v.toNat
      · exact Or.inl hin
      · have hne : (i : Int) ≠ v := by omega
        rw [Function.update_noteq hne] at hPi
        exact Or.inr ⟨hi, hPi⟩
    · rintro (hin | ⟨hi, hPi⟩)
      · rw [hin, hn]
        rw [Function.update_same]
        exact ⟨hn32, hm⟩
      · have hin : i ≠ v.toNat := by
          intro hc
          rw [hc, hn] at hPi
          rw [hPi] at hu
          cases hu
        have hne : (i : Int) ≠ v := by omega
        rw [Function.update_noteq hne]
        exact ⟨hi, hPi⟩
  unfold countInUse
  rw [hfil, Finset.card_insert_of_not_mem hnot]

theorem countInUse_low (p : Proc)
    (h : ∀ j : Nat, 3 ≤ j → j < 32 → (p.data (j : Int)).inUse = false) :
    countInUse p ≤ 3 := by
  unfold countInUse
  have hsub : (Finset.range 32).filter
      (fun i : Nat => (p.data (i : Int)).inUse = true) ⊆ Finset.range 3 := by
    intro i hi
    rw [Finset.mem_filter, Finset.mem_range] at hi
    rw [Finset.mem_range]
    by_contra hge
    have := h i (by omega) hi.1
    rw [hi.2] at this
    cases this
  calc ((Finset.range 32).filter
      (fun i : Nat => (p.data (i : Int)).inUse = true)).card
      ≤ (Finset.range 3).card := Finset.card_le_card hsub
    _ = 3 := Finset.card_range 3

/-- Under the SCFIFO content invariant the queue length is exactly the
number of in-use pages. -/
theorem queue_len_eq_count (p : Proc) (hnd : (queueList p).Nodup)
    (hmem : ∀ x : Int, x ∈ queueList p ↔ 0 ≤ x ∧ x < 32 ∧
      (p.data x).inUse = true) :
    (queueList p).length = countInUse p := by
  have himg : (queueList p).toFinset
      = ((Finset.range 32).filter
        (fun i : Nat => (p.data (i : Int)).inUse = true)).image
        (fun i : Nat => (i : Int)) := by
    ext x
    rw [List.mem_toFinset, hmem]
    simp only [Finset.mem_image, Finset.mem_filter, Finset.mem_range]
    constructor
    · rintro ⟨h0, h32, hu⟩
      refine ⟨x.toNat, ⟨by omega, ?_⟩, by omega⟩
      have hn : ((x.toNat : Nat) : Int) = x := by omega
      rw [hn]
      exact hu
    · rintro ⟨i, ⟨hi, hu⟩, hix⟩
      refine ⟨by omega, by omega, ?_⟩
      rw [← hix]
      exact hu
  have hcard := List.toFinset_card_of_nodup hnd
  rw [himg, Finset.card_image_of_injective _ (fun a b hab => by omega)] at hcard
  rw [← hcard]
  rfl

theorem Inv_scfifo_num (p : Proc) (hInv : Inv Selection.SCFIFO p) :
    p.numOfPages = p.pagesInMemory := by
  obtain ⟨h1, h2, hw, hq⟩ := hInv
  rw [if_pos rfl] at hq
  obtain ⟨hnd, hmem⟩ := hq
  have hlen := queueList_length p
  have hcount := queue_len_eq_count p hnd hmem
  have h3 : 0 ≤ p.numOfPages := hw.2.2.1
  omega

/-! Characterization of the getOffset scan. -/

theorem getOffsetGo_spec : ∀ (fuel m : Nat) (p : Proc),
    p.sz ≤ 4096 * m + 4096 * fuel →
    ((∀ k : Nat, m ≤ k → 4096 * k < p.sz →
        ∃ j : Nat, j < 32 ∧
          (p.data (j : Int)).offset = ((4096 * k : Nat) : Int)) →
      getOffsetGo p (4096 * m) fuel = 0) ∧
    (∀ k : Nat, m ≤ k → 4096 * k < p.sz →
      (∀ j : Nat, j < 32 →
        (p.data (j : Int)).offset ≠ ((4096 * k : Nat) : Int)) →
      (∀ k' : Nat, m ≤ k' → k' < k →
        ∃ j : Nat, j < 32 ∧
          (p.data (j : Int)).offset = ((4096 * k' : Nat) : Int)) →
      getOffsetGo p (4096 * m) fuel = 4096 * k) := by
  intro fuel
  induction fuel with
  | zero =>
    intro m p hsz
    constructor
    · intro _
      rfl
    · intro k hmk hk _ _
      omega
  | succ f ih =>
    intro m p hsz
    by_cases hm : 4096 * m < p.sz
    · have hany : ((List.range 32).any
          (fun j : Nat => (p.data (j : Int)).offset
            == ((4096 * m : Nat) : Int)) = true)
          ↔ ∃ j : Nat, j < 32 ∧
            (p.data (j : Int)).offset = ((4096 * m : Nat) : Int) := by
        rw [List.any_eq_true]
        constructor
        · rintro ⟨j, hj, hbeq⟩
          rw [List.mem_range] at hj
          exact ⟨j, hj, beq_iff_eq.mp hbeq⟩
        · rintro ⟨j, hj, heq⟩
          exact ⟨j, List.mem_range.mpr hj, beq_iff_eq.mpr heq⟩
      by_cases hocc : ∃ j : Nat, j < 32 ∧
          (p.data (j : Int)).offset = ((4096 * m : Nat) : Int)
      · have harg : 4096 * m + 4096 = 4096 * (m + 1) := by ring
        have hstep : getOffsetGo p (4096 * m) (f + 1)
            = getOffsetGo p (4096 * (m + 1)) f := by
          simp only [getOffsetGo, if_pos hm, hany.mpr hocc, if_true, harg]
        obtain ⟨ih1, ih2⟩ := ih (m + 1) p (by omega)
        constructor
        · intro hall
          rw [hstep]
          exact ih1 (fun k hk1 hk2 => hall k (by omega) hk2)
        · intro k hmk hk hfree hbelow
          rw [hstep]
          rcases Nat.eq_or_lt_of_le hmk with heq | hlt
          · exfalso
            obtain ⟨j, hj, hje⟩ := hocc
            rw [heq] at hje
            exact hfree j hj hje
          · exact ih2 k hlt hk hfree
              (fun k' hk1 hk2 => hbelow k' (by omega) hk2)
      · have hret : getOffsetGo p (4096 * m) (f + 1) = 4096 * m := by
          have hanyf : ((List.range 32).any
              (fun j : Nat => (p.data (j : Int)).offset
                == ((4096 * m : Nat) : Int))) = false := by
            rw [Bool.eq_false_iff]
            intro hx
            exact hocc (hany.mp hx)
          simp only [getOffsetGo, if_pos hm, hanyf, Bool.false_eq_true,
            if_false]
        constructor
        · intro hall
          exact absurd (hall m le_rfl hm) hocc
        · intro k hmk hk hfree hbelow
          rcases Nat.eq_or_lt_of_le hmk with heq | hlt
          · rw [hret, heq]
          · exact absurd (hbelow m le_rfl hlt) hocc
    · have hret : getOffsetGo p (4096 * m) (f + 1) = 0 := by
        simp only [getOffsetGo, if_neg hm]
      constructor
      · intro _
        exact hret
      · intro k hmk hk _ _
        omega

theorem getOffset_least (p : Proc) (k : Nat) (hk : 4096 * k < p.sz)
    (hfree : ∀ j : Nat, j < 32 →
      (p.data (j : Int)).offset ≠ ((4096 * k : Nat) : Int))
    (hmin : ∀ k' : Nat, k' < k → ∃ j : Nat, j < 32 ∧
      (p.data (j : Int)).offset = ((4096 * k' : Nat) : Int)) :
    getOffset p = 4096 * k := by
  unfold getOffset
  have h0 : (0 : Nat) = 4096 * 0 := by norm_num
  rw [h0]
  exact (getOffsetGo_spec (p.sz / 4096 + 1) 0 p (by omega)).2 k (by omega)
    hk hfree (fun k' _ h => hmin k' h)

/-! Unfolding lemmas for page_to_file and the selectors. -/

theorem getIndexToRemove_NFUA (p : Proc) :
    getIndexToRemove Selection.NFUA p = (nfua p, p) := rfl

theorem getIndexToRemove_LAPA (p : Proc) :
    getIndexToRemove Selection.LAPA p = (lapa p, p) := rfl

theorem getIndexToRemove_SCFIFO (p : Proc) :
    getIndexToRemove Selection.SCFIFO p = scfifo p := rfl

theorem page_to_file_data (sel : Selection) (p : Proc) (off : Nat) :
    (page_to_file sel p off).data
      = Function.update (getIndexToRemove sel p).2.data
        (getIndexToRemove sel p).1
        { (getIndexToRemove sel p).2.data (getIndexToRemove sel p).1 with
            offset := intOfUint off, inUse := false } := rfl

theorem page_to_file_pagetable (sel : Selection) (p : Proc) (off : Nat) :
    (page_to_file sel p off).pagetable
      = Function.update (getIndexToRemove sel p).2.pagetable
        (getIndexToRemove sel p).1
        (((getIndexToRemove sel p).2.pagetable (getIndexToRemove sel p).1
          &&& (U64MASK ^^^ PTE_V)) ||| PTE_PG) := rfl

theorem page_to_file_pim (sel : Selection) (p : Proc) (off : Nat) :
    (page_to_file sel p off).pagesInMemory
      = (getIndexToRemove sel p).2.pagesInMemory - 1 := rfl

theorem page_to_file_head (sel : Selection) (p : Proc) (off : Nat) :
    (page_to_file sel p off).head = (getIndexToRemove sel p).2.head := rfl

theorem page_to_file_tail (sel : Selection) (p : Proc) (off : Nat) :
    (page_to_file sel p off).tail = (getIndexToRemove sel p).2.tail := rfl

theorem page_to_file_num (sel : Selection) (p : Proc) (off : Nat) :
    (page_to_file sel p off).numOfPages
      = (getIndexToRemove sel p).2.numOfPages := rfl

theorem page_to_file_pages (sel : Selection) (p : Proc) (off : Nat) :
    (page_to_file sel p off).pages = (getIndexToRemove sel p).2.pages := rfl

theorem page_to_file_queueList (sel : Selection) (p : Proc) (off : Nat) :
    queueList (page_to_file sel p off)
      = queueList (getIndexToRemove sel p).2 := rfl

/-- Inv preservation by page_to_file under a policy, given that victim
selection succeeds; pagesInMemory drops by exactly one. -/
theorem page_to_file_Inv (sel : Selection) (p : Proc) (off : Nat)
    (hsel : sel ≠ Selection.NONE) (hInv : Inv sel p)
    (hvic : victimOk sel p) :
    Inv sel (page_to_file sel p off) ∧
      (page_to_file sel p off).pagesInMemory = p.pagesInMemory - 1 ∧
      (∀ j : Int, (p.data j).inUse = false →
        (page_to_file sel p off).data j = p.data j) ∧
      (∀ j : Int, (p.data j).inUse = false → p.pagetable j &&& PTE_V = 0 →
        (page_to_file sel p off).pagetable j &&& PTE_V = 0) := by
  obtain ⟨hc, hcap, hw, hrest⟩ := hInv
  cases sel with
  | NONE => exact absurd rfl hsel
  | NFUA =>
    rw [if_neg (by decide)] at hrest
    obtain ⟨iw, hi3, hi32, hiu, hia⟩ := hvic
    rcases nfua_cases p with ⟨_, hall⟩ | ⟨jv, hj3, hj32, hjeq, hju, _, _, _⟩
    · exact absurd (hall iw hi3 hi32 hiu) (by omega)
    · have hdata : (page_to_file Selection.NFUA p off).data
          = Function.update p.data (nfua p)
            { inUse := false, offset := intOfUint off,
              agingCounter := (p.data (nfua p)).agingCounter } := rfl
      have hupd := countInUse_update_false p (page_to_file Selection.NFUA p off)
        (jv : Int) (by omega) (by omega) hju _ rfl (by rw [hdata, hjeq])
      have hpim : (page_to_file Selection.NFUA p off).pagesInMemory
          = p.pagesInMemory - 1 := rfl
      have hnum : (page_to_file Selection.NFUA p off).numOfPages
          = p.numOfPages := rfl
      refine ⟨⟨?_, ?_, hw, ?_⟩, hpim, ?_, ?_⟩
      · rw [hpim]
        omega
      · rw [hpim]
        omega
      · rw [if_neg (by decide), hnum]
        exact hrest
      · intro j hj
        have hne : j ≠ nfua p := by
          intro hcontra
          rw [hcontra, hjeq, hju] at hj
          cases hj
        rw [hdata, Function.update_noteq hne]
      · intro j hj hV
        have hne : j ≠ nfua p := by
          intro hcontra
          rw [hcontra, hjeq, hju] at hj
          cases hj
        have hpt : (page_to_file Selection.NFUA p off).pagetable
            = Function.update p.pagetable (nfua p)
              ((p.pagetable (nfua p) &&& (U64MASK ^^^ PTE_V)) ||| PTE_PG) := rfl
        rw [hpt, Function.update_noteq hne]
        exact hV
  | LAPA =>
    rw [if_neg (by decide)] at hrest
    obtain ⟨iw, hi3, hi32, hiu⟩ := hvic
    rcases lapa_cases p with ⟨_, hall⟩ | ⟨jv, hj3, hj32, hjeq, hju⟩
    · rw [hall iw hi3 hi32] at hiu
      cases hiu
    · have hdata : (page_to_file Selection.LAPA p off).data
          = Function.update p.data (lapa p)
            { inUse := false, offset := intOfUint off,
              agingCounter := (p.data (lapa p)).agingCounter } := rfl
      have hupd := countInUse_update_false p (page_to_file Selection.LAPA p off)
        (jv : Int) (by omega) (by omega) hju _ rfl (by rw [hdata, hjeq])
      have hpim : (page_to_file Selection.LAPA p off).pagesInMemory
          = p.pagesInMemory - 1 := rfl
      have hnum : (page_to_file Selection.LAPA p off).numOfPages
          = p.numOfPages := rfl
      refine ⟨⟨?_, ?_, hw, ?_⟩, hpim, ?_, ?_⟩
      · rw [hpim]
        omega
      · rw [hpim]
        omega
      · rw [if_neg (by decide), hnum]
        exact hrest
      · intro j hj
        have hne : j ≠ lapa p := by
          intro hcontra
          rw [hcontra, hjeq, hju] at hj
          cases hj
        rw [hdata, Function.update_noteq hne]
      · intro j hj hV
        have hne : j ≠ lapa p := by
          intro hcontra
          rw [hcontra, hjeq, hju] at hj
          cases hj
        have hpt : (page_to_file Selection.LAPA p off).pagetable
            = Function.update p.pagetable (lapa p)
              ((p.pagetable (lapa p) &&& (U64MASK ^^^ PTE_V)) ||| PTE_PG) := rfl
        rw [hpt, Function.update_noteq hne]
        exact hV
  | SCFIFO =>
    rw [if_pos rfl] at hrest
    obtain ⟨hnd, hmem⟩ := hrest
    have hnum : p.numOfPages = p.pagesInMemory :=
      Inv_scfifo_num p ⟨hc, hcap, hw, by rw [if_pos rfl]; exact ⟨hnd, hmem⟩⟩
    have hpos : 0 < p.numOfPages := by
      have : (1 : Int) ≤ p.pagesInMemory := hvic
      omega
    obtain ⟨m1, m2, m3, m4, m5, m6⟩ := scfifo_mem_spec p hw hnd hpos
    set v : Int := (scfifo p).1 with hv
    set p1 : Proc := (scfifo p).2 with hp1
    have hvprops := (hmem v).mp m1
    obtain ⟨hv0, hv32, hvu⟩ := hvprops
    have hdata1 : p1.data = p.data := m2.1
    set q : Proc := page_to_file Selection.SCFIFO p off with hqdef
    have hqdata0 : q.data = Function.update p1.data v
        { inUse := false, offset := intOfUint off,
          agingCounter := (p1.data v).agingCounter } := rfl
    have hqdata : q.data = Function.update p.data v
        { inUse := false, offset := intOfUint off,
          agingCounter := (p.data v).agingCounter } := by
      rw [hqdata0, hdata1]
    have hupd := countInUse_update_false p q v hv0 hv32 hvu _ rfl hqdata
    have hqpim : q.pagesInMemory = p.pagesInMemory - 1 := by
      have h0 : q.pagesInMemory = p1.pagesInMemory - 1 := rfl
      rw [h0, m2.2.1]
    have hqqueue : queueList q = queueList p1 := rfl
    have hqwf : wfQ q := by
      have h1 : wfQ p1 := m3
      exact h1
    refine ⟨⟨?_, by omega, hqwf, ?_⟩, hqpim, ?_, ?_⟩
    · omega
    · rw [if_pos rfl]
      constructor
      · rw [hqqueue]
        exact m5.nodup_iff.mpr (hnd.erase _)
      · intro x
        rw [hqqueue, m5.mem_iff, List.Nodup.mem_erase_iff hnd, hmem x]
        constructor
        · rintro ⟨hxv, h0, h32, hxu⟩
          refine ⟨h0, h32, ?_⟩
          rw [hqdata, Function.update_noteq hxv]
          exact hxu
        · rintro ⟨h0, h32, hxu⟩
          by_cases hxv : x = v
          · rw [hqdata, hxv, Function.update_same] at hxu
            cases hxu
          · rw [hqdata, Function.update_noteq hxv] at hxu
            exact ⟨hxv, h0, h32, hxu⟩
    · intro j hj
      have hne : j ≠ v := by
        intro hcontra
        rw [hcontra, hvu] at hj
        cases hj
      rw [hqdata, Function.update_noteq hne]
    · intro j hj hV
      have hne : j ≠ v := by
        intro hcontra
        rw [hcontra, hvu] at hj
        cases hj
      have hqpt : q.pagetable = Function.update p1.pagetable v
          ((p1.pagetable v &&& (U64MASK ^^^ PTE_V)) ||| PTE_PG) := rfl
      rw [hqpt, Function.update_noteq hne, and_PTE_V,
        m6 j 0 (by norm_num) (by norm_num), ← and_PTE_V]
      exact hV

/-! Component lemmas for initAging. -/

theorem initAging_data (sel : Selection) (page : Int) (p : Proc) :
    (initAging sel page p).2.data = p.data := by cases sel <;> rfl

theorem initAging_pim (sel : Selection) (page : Int) (p : Proc) :
    (initAging sel page p).2.pagesInMemory = p.pagesInMemory := by
  cases sel <;> rfl

theorem initAging_pagetable (sel : Selection) (page : Int) (p : Proc) :
    (initAging sel page p).2.pagetable = p.pagetable := by cases sel <;> rfl

theorem initAging_head (sel : Selection) (page : Int) (p : Proc) :
    (initAging sel page p).2.head = p.head := by cases sel <;> rfl

theorem initAging_fst (sel : Selection) (page : Int) (p q : Proc) :
    (initAging sel page p).1 = (initAging sel page q).1 := by cases sel <;> rfl

theorem initAging_notSCFIFO (sel : Selection) (page : Int) (p : Proc)
    (h : sel ≠ Selection.SCFIFO) : (initAging sel page p).2 = p := by
  cases sel with
  | SCFIFO => exact absurd rfl h
  | NONE => rfl
  | NFUA => rfl
  | LAPA => rfl

theorem initAging_SCFIFO (page : Int) (p : Proc) :
    (initAging Selection.SCFIFO page p).2 = inQ p page := rfl

theorem wfQ_of_eq (p q : Proc) (h1 : q.head = p.head) (h2 : q.tail = p.tail)
    (h3 : q.numOfPages = p.numOfPages) (hw : wfQ p) : wfQ q := by
  unfold wfQ at *
  rw [h1, h2, h3]
  exact hw

theorem queueList_congr (p q : Proc) (h1 : q.head = p.head)
    (h2 : q.numOfPages = p.numOfPages) (h3 : q.pages = p.pages) :
    queueList q = queueList p := by
  unfold queueList
  rw [h1, h2, h3]

/-- Inv preservation for the final install step of swap_in: p1 agrees with
pbase except possibly in the page table; the faulting page i, not in use
in pbase and below the cap, is made resident and (under SCFIFO) enqueued
by initAging. -/
theorem install_Inv (sel : Selection) (pbase p1 : Proc) (i : Int)
    (hsel : sel ≠ Selection.NONE)
    (hdata : p1.data = pbase.data)
    (hpim : p1.pagesInMemory = pbase.pagesInMemory)
    (hh : p1.head = pbase.head) (ht : p1.tail = pbase.tail)
    (hn : p1.numOfPages = pbase.numOfPages) (hpg : p1.pages = pbase.pages)
    (hInv : Inv sel pbase) (hi0 : 0 ≤ i) (hi32 : i < 32)
    (hnot : (pbase.data i).inUse = false)
    (hcap : pbase.pagesInMemory < 16) :
    Inv sel { (initAging sel i p1).2 with
      data := Function.update (initAging sel i p1).2.data i
        { inUse := true, offset := -1,
          agingCounter := (initAging sel i p1).1 },
      pagesInMemory := (initAging sel i p1).2.pagesInMemory + 1 } := by
  obtain ⟨hc, hcap0, hw, hrest⟩ := hInv
  set p3 : Proc := (initAging sel i p1).2 with hp3
  set q : Proc := { p3 with
    data := Function.update p3.data i
      { inUse := true, offset := -1,
        agingCounter := (initAging sel i p1).1 },
    pagesInMemory := p3.pagesInMemory + 1 } with hqdef
  have hqdata : q.data = Function.update pbase.data i
      { inUse := true, offset := -1,
        agingCounter := (initAging sel i p1).1 } := by
    show Function.update p3.data i _ = _
    rw [hp3, initAging_data, hdata]
  have hqpim : q.pagesInMemory = pbase.pagesInMemory + 1 := by
    show p3.pagesInMemory + 1 = _
    rw [hp3, initAging_pim, hpim]
  have hcount := countInUse_update_true pbase q i hi0 hi32 hnot _ rfl hqdata
  have hw1 : wfQ p1 := wfQ_of_eq pbase p1 hh ht hn hw
  by_cases hsc : sel = Selection.SCFIFO
  · subst hsc
    rw [if_pos rfl] at hrest
    obtain ⟨hnd, hmem⟩ := hrest
    have hnumpim : pbase.numOfPages = pbase.pagesInMemory :=
      Inv_scfifo_num pbase ⟨hc, hcap0, hw, by rw [if_pos rfl]; exact ⟨hnd, hmem⟩⟩
    have hn32 : p1.numOfPages < 32 := by
      rw [hn]
      omega
    have hp3q : p3 = inQ p1 i := by
      rw [hp3, initAging_SCFIFO]
    have hwp3 : wfQ p3 := by
      rw [hp3q]
      exact wfQ_inQ p1 i hw1 hn32
    have hq1 : queueList p1 = queueList pbase :=
      queueList_congr pbase p1 hh hn hpg
    have hqlist : queueList q = queueList pbase ++ [i] := by
      have h1 : queueList q = queueList p3 :=
        queueList_congr p3 q rfl rfl rfl
      rw [h1, hp3q, queueList_inQ p1 i hw1 hn32, hq1]
    have hinot : i ∉ queueList pbase := by
      intro hx
      have := ((hmem i).mp hx).2.2
      rw [hnot] at this
      cases this
    refine ⟨?_, by omega, ?_, ?_⟩
    · rw [hqpim]
      omega
    · exact wfQ_of_eq p3 q rfl rfl rfl hwp3
    · rw [if_pos rfl]
      constructor
      · rw [hqlist]
        rw [List.nodup_append]
        exact ⟨hnd, List.nodup_singleton i,
          fun a ha hb => by
            rw [List.mem_singleton] at hb
            exact hinot (hb ▸ ha)⟩
      · intro x
        rw [hqlist]
        have hdata3 : p3.data = pbase.data := by
          rw [hp3, initAging_data, hdata]
        simp only [List.mem_append, List.mem_singleton]
        constructor
        · rintro (hx | hx)
          · obtain ⟨h0, h32, hxu⟩ := (hmem x).mp hx
            refine ⟨h0, h32, ?_⟩
            have hxne : x ≠ i := by
              intro hcontra
              rw [hcontra] at hxu
              rw [hnot] at hxu
              cases hxu
            rw [Function.update_noteq hxne, hdata3]
            exact hxu
          · refine ⟨by omega, by omega, ?_⟩
            rw [hx, Function.update_same]
        · rintro ⟨h0, h32, hxu⟩
          by_cases hxi : x = i
          · exact Or.inr hxi
          · left
            rw [Function.update_noteq hxi, hdata3] at hxu
            exact (hmem x).mpr ⟨h0, h32, hxu⟩
  · have hp3e : p3 = p1 := by
      rw [hp3]
      exact initAging_notSCFIFO sel i p1 hsc
    rw [if_neg hsc] at hrest
    refine ⟨?_, by rw [hqpim]; omega, ?_, ?_⟩
    · rw [hqpim]
      omega
    · refine wfQ_of_eq pbase q ?_ ?_ ?_ hw
      · show p3.head = _
        rw [hp3e, hh]
      · show p3.tail = _
        rw [hp3e, ht]
      · show p3.numOfPages = _
        rw [hp3e, hn]
    · rw [if_neg hsc]
      show p3.numOfPages = 0
      rw [hp3e, hn]
      exact hrest

/-- Inv preservation for swap_in under a policy: the faulting page is below
index 32, currently not resident, and backed by the swap file; at the cap,
victim selection is assumed to succeed. -/
theorem swap_in_Inv (sel : Selection) (p : Proc) (va buff : Nat)
    (hsel : sel ≠ Selection.NONE) (hInv : Inv sel p) (hva : va < 32 * 4096)
    (hnot : (p.data ((va / 4096 : Nat) : Int)).inUse = false)
    (hoff : 0 ≤ (p.data ((va / 4096 : Nat) : Int)).offset)
    (hbuff : buff ≠ 0)
    (hvic : 16 ≤ p.pagesInMemory → victimOk sel p) :
    ∀ q : Proc, swap_in sel p va buff = some q → Inv sel q := by
  intro q hq
  have hoffne : ¬ (p.data ((va / 4096 : Nat) : Int)).offset = -1 := by omega
  have hbuffne : ¬ buff = 0 := hbuff
  have hi0 : (0 : Int) ≤ ((va / 4096 : Nat) : Int) := by omega
  have hi32 : ((va / 4096 : Nat) : Int) < 32 := by omega
  by_cases hpim : p.pagesInMemory < 16
  · simp only [swap_in, if_neg hoffne, if_neg hbuffne, if_pos hpim] at hq
    rw [Option.some.injEq] at hq
    subst hq
    exact install_Inv sel p _ ((va / 4096 : Nat) : Int) hsel rfl rfl rfl rfl
      rfl rfl hInv hi0 hi32 hnot hpim
  · simp only [swap_in, if_neg hoffne, if_neg hbuffne, if_neg hpim] at hq
    rw [Option.some.injEq] at hq
    subst hq
    have hcap : p.pagesInMemory ≤ 16 := hInv.2.1
    obtain ⟨hInv2, hpim2, hdatapres, _⟩ := page_to_file_Inv sel p
      (uintOfInt (p.data ((va / 4096 : Nat) : Int)).offset) hsel hInv
      (hvic (by omega))
    have hnot2 : ((page_to_file sel p
        (uintOfInt (p.data ((va / 4096 : Nat) : Int)).offset)).data
        ((va / 4096 : Nat) : Int)).inUse = false := by
      rw [hdatapres _ hnot]
      exact hnot
    exact install_Inv sel
      (page_to_file sel p (uintOfInt (p.data ((va / 4096 : Nat) : Int)).offset))
      _ ((va / 4096 : Nat) : Int) hsel rfl rfl rfl rfl rfl rfl hInv2 hi0 hi32
      hnot2 (by omega)

/-- One PageMeta record with only the offset rewritten to its existing
value is the record itself. -/
theorem pagemeta_offset_eta (m : PageMeta) (h : m.offset = -1) :
    ({ inUse := m.inUse, offset := -1, agingCounter := m.agingCounter }
      : PageMeta) = m := by
  rw [← h]

/-- Inv only reads the queue cursors, pagesInMemory and the inUse flags, so
it transports along agreement of those fields. -/
theorem Inv_congr (sel : Selection) (p q : Proc)
    (hh : q.head = p.head) (ht : q.tail = p.tail)
    (hn : q.numOfPages = p.numOfPages) (hpg : q.pages = p.pages)
    (hpim : q.pagesInMemory = p.pagesInMemory)
    (hdata : ∀ x : Int, (q.data x).inUse = (p.data x).inUse)
    (hInv : Inv sel p) : Inv sel q := by
  obtain ⟨hc, hcap, hw, hrest⟩ := hInv
  have hcnt : countInUse q = countInUse p :=
    countInUse_congr p q (fun i _ => hdata _)
  have hql : queueList q = queueList p := queueList_congr p q hh hn hpg
  refine ⟨by rw [hcnt, hpim]; exact hc, by rw [hpim]; exact hcap,
    wfQ_of_eq p q hh ht hn hw, ?_⟩
  by_cases hsc : sel = Selection.SCFIFO
  · subst hsc
    rw [if_pos rfl] at hrest ⊢
    obtain ⟨hnd, hmem⟩ := hrest
    refine ⟨by rw [hql]; exact hnd, ?_⟩
    intro x
    rw [hql, hmem x, hdata x]
  · rw [if_neg hsc] at hrest ⊢
    rw [hn]
    exact hrest

/-- Inv preservation by the uvmunmap loop: any page whose PTE is present
and valid must have non-V-only flags (no panic) and, below index 32, be
marked in use, so the metadata bookkeeping stays consistent. -/
theorem unmapLoop_Inv : ∀ (n : Nat) (sel : Selection) (p : Proc) (a : Nat)
    (free : Bool), sel ≠ Selection.NONE → Inv sel p →
    (∀ k : Nat, k < n →
      p.walkOk ((a / 4096 + k : Nat) : Int) = true →
      p.pagetable ((a / 4096 + k : Nat) : Int) &&& PTE_V ≠ 0 →
      (PTE_FLAGS (p.pagetable ((a / 4096 + k : Nat) : Int)) ≠ PTE_V ∧
        (((a / 4096 + k : Nat) : Int) < 32 →
          (p.data ((a / 4096 + k : Nat) : Int)).inUse = true))) →
    ∀ q : Proc, unmapLoop sel p a free n = some q → Inv sel q := by
  intro n
  induction n with
  | zero =>
    intro sel p a free hsel hInv _ q hq
    simp only [unmapLoop, Option.some.injEq] at hq
    rw [← hq]
    exact hInv
  | succ m ih =>
    intro sel p a free hsel hInv hcond q hq
    have hshift : ∀ (p2 : Proc), p2.walkOk = p.walkOk →
        (∀ y : Int, y ≠ ((a / 4096 : Nat) : Int) →
          p2.pagetable y = p.pagetable y) →
        (∀ y : Int, y ≠ ((a / 4096 : Nat) : Int) →
          (p2.data y).inUse = (p.data y).inUse) →
        (∀ k : Nat, k < m →
          p2.walkOk (((a + 4096) / 4096 + k : Nat) : Int) = true →
          p2.pagetable (((a + 4096) / 4096 + k : Nat) : Int) &&& PTE_V ≠ 0 →
          (PTE_FLAGS (p2.pagetable (((a + 4096) / 4096 + k : Nat) : Int))
              ≠ PTE_V ∧
            ((((a + 4096) / 4096 + k : Nat) : Int) < 32 →
              (p2.data (((a + 4096) / 4096 + k : Nat) : Int)).inUse
                = true))) := by
      intro p2 hwo hpt hdt k hk
      have hne : (((a + 4096) / 4096 + k : Nat) : Int)
          ≠ ((a / 4096 : Nat) : Int) := by omega
      have heq : ((a + 4096) / 4096 + k : Nat) = (a / 4096 + (k + 1) : Nat) := by
        omega
      rw [hwo, hpt _ hne, heq]
      intro h1 h2
      refine ⟨(hcond (k + 1) (by omega) h1 h2).1, ?_⟩
      intro h32
      have hdt2 := hdt (((a / 4096 + (k + 1) : Nat) : Int)) (by omega)
      rw [hdt2]
      exact (hcond (k + 1) (by omega) h1 h2).2 h32
    by_cases hwalk : p.walkOk ((a / 4096 : Nat) : Int) = true
    · by_cases hv0 : p.pagetable ((a / 4096 : Nat) : Int) &&& PTE_V = 0
      · -- present but not valid: possibly reset the offset, clear the PTE
        simp only [unmapLoop, hwalk, if_true, ne_eq, hv0, not_true_eq_false,
          if_false] at hq
        by_cases hlow : sel ≠ Selection.NONE ∧ ((a / 4096 : Nat) : Int) < 32
        · rw [if_pos hlow] at hq
          refine ih sel _ (a + 4096) free hsel ?_ ?_ q hq
          · refine Inv_congr sel p _ rfl rfl rfl rfl rfl ?_ hInv
            intro x
            by_cases hx : x = ((a / 4096 : Nat) : Int)
            · rw [hx]
              show (Function.update p.data _ _ _).inUse = _
              rw [Function.update_same]
            · show (Function.update p.data _ _ _).inUse = _
              rw [Function.update_noteq hx]
          · refine hshift _ rfl ?_ ?_
            · intro y hy
              show Function.update _ _ _ y = _
              rw [Function.update_noteq hy]
            · intro y hy
              show (Function.update p.data _ _ _).inUse = _
              rw [Function.update_noteq hy]
        · rw [if_neg hlow] at hq
          refine ih sel _ (a + 4096) free hsel ?_ ?_ q hq
          · exact Inv_congr sel p _ rfl rfl rfl rfl rfl (fun _ => rfl) hInv
          · refine hshift _ rfl ?_ ?_
            · intro y hy
              show Function.update _ _ _ y = _
              rw [Function.update_noteq hy]
            · intro y hy
              rfl
      · -- valid PTE
        obtain ⟨hflags, hinuse⟩ := hcond 0 (by omega)
          (by rw [Nat.add_zero]; exact hwalk)
          (by rw [Nat.add_zero]; exact hv0)
        rw [Nat.add_zero] at hflags hinuse
        simp only [unmapLoop, hwalk, if_true, ne_eq, hv0, not_false_eq_true,
          if_true, if_neg hflags] at hq
        by_cases hfree : free = true
        · rw [if_pos hfree] at hq
          by_cases hlow : sel ≠ Selection.NONE ∧ ((a / 4096 : Nat) : Int) < 32
          · rw [if_pos hlow] at hq
            obtain ⟨hc, hcap, hw, hrest⟩ := hInv
            set idx : Int := ((a / 4096 : Nat) : Int) with hidxdef
            set pA : Proc := { p with
              data := Function.update p.data idx
                { inUse := false, offset := -1,
                  agingCounter := (p.data idx).agingCounter },
              pagesInMemory :=
                if p.pagesInMemory = 0 then 0 else p.pagesInMemory - 1 }
              with hpAdef
            have hAdata : pA.data = Function.update p.data idx
                { inUse := false, offset := -1,
                  agingCounter := (p.data idx).agingCounter } := rfl
            have hcnt := countInUse_update_false p pA idx (by omega) hlow.2
              (hinuse hlow.2) _ rfl hAdata
            have hApim : pA.pagesInMemory = p.pagesInMemory - 1 := by
              show (if p.pagesInMemory = 0 then 0 else p.pagesInMemory - 1) = _
              have hne : ¬ p.pagesInMemory = 0 := by omega
              rw [if_neg hne]
            have hwA : wfQ pA := hw
            have hqA : queueList pA = queueList p := rfl
            set rp : Proc := removePage pA idx with hrpdef
            have hInvRP : Inv sel rp ∧ rp.pagetable = p.pagetable ∧
                rp.walkOk = p.walkOk ∧ rp.data = pA.data := by
              by_cases hsc : sel = Selection.SCFIFO
              · subst hsc
                rw [if_pos rfl] at hrest
                obtain ⟨hnd, hmem⟩ := hrest
                have hndA : (queueList pA).Nodup := by rw [hqA]; exact hnd
                have hmemA : idx ∈ queueList pA := by
                  rw [hqA]
                  exact (hmem idx).mpr ⟨by omega, hlow.2, hinuse hlow.2⟩
                obtain ⟨r1, r2, r3, r4⟩ :=
                  removePage_mem_perm pA idx hwA hndA hmemA
                refine ⟨⟨?_, ?_, r3, ?_⟩, by rw [r2], r1.2.2.2.2, r1.1⟩
                · have hcr : countInUse rp = countInUse pA :=
                    countInUse_congr pA rp (fun i _ => by rw [r1.1])
                  rw [r1.2.1, hcr, hApim]
                  omega
                · rw [r1.2.1, hApim]
                  omega
                · rw [if_pos rfl]
                  constructor
                  · exact r4.nodup_iff.mpr (hndA.erase _)
                  · intro x
                    rw [r4.mem_iff, List.Nodup.mem_erase_iff hndA, hqA,
                      hmem x, r1.1, hAdata]
                    constructor
                    · rintro ⟨hxne, h0, h32, hxu⟩
                      refine ⟨h0, h32, ?_⟩
                      rw [Function.update_noteq hxne]
                      exact hxu
                    · rintro ⟨h0, h32, hxu⟩
                      by_cases hxi : x = idx
                      · rw [hxi, Function.update_same] at hxu
                        cases hxu
                      · rw [Function.update_noteq hxi] at hxu
                        exact ⟨hxi, h0, h32, hxu⟩
              · rw [if_neg hsc] at hrest
                have hqAnil : queueList pA = [] := by
                  rw [hqA]
                  exact queueList_nil p (by omega)
                obtain ⟨r1, r2, r3, r4⟩ := removePage_notmem pA idx hwA
                  (by rw [hqAnil]; exact List.not_mem_nil idx)
                refine ⟨⟨?_, ?_, r3, ?_⟩, by rw [r2], r1.2.2.2.2, r1.1⟩
                · have hcr : countInUse rp = countInUse pA :=
                    countInUse_congr pA rp (fun i _ => by rw [r1.1])
                  rw [r1.2.1, hcr, hApim]
                  omega
                · rw [r1.2.1, hApim]
                  omega
                · rw [if_neg hsc]
                  have hlen := queueList_length rp
                  rw [r4, hqAnil] at hlen
                  have h0 : 0 ≤ rp.numOfPages := r3.2.2.1
                  simp only [List.length_nil] at hlen
                  omega
            obtain ⟨hInvRP, hrpPT, hrpWO, hrpD⟩ := hInvRP
            refine ih sel _ (a + 4096) free hsel ?_ ?_ q hq
            · exact Inv_congr sel rp _ rfl rfl rfl rfl rfl (fun _ => rfl)
                hInvRP
            · refine hshift _ ?_ ?_ ?_
              · show rp.walkOk = p.walkOk
                exact hrpWO
              · intro y hy
                show Function.update rp.pagetable idx 0 y = _
                rw [Function.update_noteq hy, hrpPT]
              · intro y hy
                show (rp.data y).inUse = _
                rw [hrpD, hAdata, Function.update_noteq hy]
          · rw [if_neg hlow] at hq
            refine ih sel _ (a + 4096) free hsel ?_ ?_ q hq
            · exact Inv_congr sel p _ rfl rfl rfl rfl rfl (fun _ => rfl) hInv
            · refine hshift _ rfl ?_ ?_
              · intro y hy
                show Function.update _ _ _ y = _
                rw [Function.update_noteq hy]
              · intro y hy
                rfl
        · rw [if_neg hfree] at hq
          refine ih sel _ (a + 4096) free hsel ?_ ?_ q hq
          · exact Inv_congr sel p _ rfl rfl rfl rfl rfl (fun _ => rfl) hInv
          · refine hshift _ rfl ?_ ?_
            · intro y hy
              show Function.update _ _ _ y = _
              rw [Function.update_noteq hy]
            · intro y hy
              rfl
    · simp only [unmapLoop, hwalk, if_false] at hq
      exact ih sel p (a + 4096) free hsel hInv
        (hshift p rfl (fun y _ => rfl) (fun y _ => rfl)) q hq


/-- The scfifo loop never touches the metadata array, pagesInMemory, pid,
sz or walkOk (it only rotates the queue and clears accessed bits). -/
theorem scfLoop_frame : ∀ (fuel : Nat) (p : Proc) (i : Int),
    (scfLoop p i fuel).2.data = p.data ∧
      (scfLoop p i fuel).2.pagesInMemory = p.pagesInMemory ∧
      (scfLoop p i fuel).2.pid = p.pid ∧
      (scfLoop p i fuel).2.sz = p.sz ∧
      (scfLoop p i fuel).2.walkOk = p.walkOk := by
  intro fuel
  induction fuel with
  | zero => intro p i; exact ⟨rfl, rfl, rfl, rfl, rfl⟩
  | succ f ih =>
    intro p i
    by_cases hlt : i < p.numOfPages
    · by_cases ha0 : p.pagetable (p.pages p.head) &&& PTE_A = 0
      · simp only [scfLoop, hlt, if_true, ne_eq, ha0, not_true_eq_false,
          if_false]
        exact ⟨rfl, rfl, rfl, rfl, rfl⟩
      · simp only [scfLoop, hlt, if_true, ne_eq, ha0, not_false_eq_true,
          if_true]
        exact ih _ (i + 1)
    · simp only [scfLoop, hlt, if_false]
      exact ⟨rfl, rfl, rfl, rfl, rfl⟩

/-- The process returned by getIndexToRemove keeps the metadata array,
pagesInMemory, pid, sz and walkOk of its argument, for every policy. -/
theorem getIndexToRemove_frame (sel : Selection) (p : Proc) :
    (getIndexToRemove sel p).2.data = p.data ∧
      (getIndexToRemove sel p).2.pagesInMemory = p.pagesInMemory ∧
      (getIndexToRemove sel p).2.pid = p.pid ∧
      (getIndexToRemove sel p).2.sz = p.sz ∧
      (getIndexToRemove sel p).2.walkOk = p.walkOk := by
  cases sel with
  | NONE => exact ⟨rfl, rfl, rfl, rfl, rfl⟩
  | NFUA => exact ⟨rfl, rfl, rfl, rfl, rfl⟩
  | LAPA => exact ⟨rfl, rfl, rfl, rfl, rfl⟩
  | SCFIFO => exact scfLoop_frame (p.numOfPages.toNat + 1) p 0

theorem initAging_pid (sel : Selection) (page : Int) (p : Proc) :
    (initAging sel page p).2.pid = p.pid := by cases sel <;> rfl

theorem initAging_walkOk (sel : Selection) (page : Int) (p : Proc) :
    (initAging sel page p).2.walkOk = p.walkOk := by cases sel <;> rfl

/-- initAging builds its queue effect solely from the queue cursors, so two
states agreeing on those yield initAging results agreeing on them. -/
theorem initAging_cursor_congr (sel : Selection) (page : Int) (X Y : Proc)
    (hh : X.head = Y.head) (ht : X.tail = Y.tail)
    (hn : X.numOfPages = Y.numOfPages) (hp : X.pages = Y.pages) :
    (initAging sel page X).2.head = (initAging sel page Y).2.head ∧
      (initAging sel page X).2.tail = (initAging sel page Y).2.tail ∧
      (initAging sel page X).2.numOfPages = (initAging sel page Y).2.numOfPages ∧
      (initAging sel page X).2.pages = (initAging sel page Y).2.pages := by
  cases sel with
  | NONE => exact ⟨hh, ht, hn, hp⟩
  | NFUA => exact ⟨hh, ht, hn, hp⟩
  | LAPA => exact ⟨hh, ht, hn, hp⟩
  | SCFIFO =>
    refine ⟨hh, ?_, ?_, ?_⟩
    · rw [initAging_SCFIFO, initAging_SCFIFO, inQ_tail, inQ_tail, ht]
    · rw [initAging_SCFIFO, initAging_SCFIFO, inQ_numOfPages, inQ_numOfPages,
        hn]
    · rw [initAging_SCFIFO, initAging_SCFIFO, inQ_pages, inQ_pages, hp, ht]

/-- The uvmunmap loop is a no-op on a range every walked page of which has
a zero PTE and (below index 32) an already reset offset. -/
theorem unmapLoop_noop : ∀ (n : Nat) (sel : Selection) (p : Proc) (a : Nat)
    (free : Bool),
    (∀ k : Nat, k < n → p.walkOk ((a / 4096 + k : Nat) : Int) = true →
      (p.pagetable ((a / 4096 + k : Nat) : Int) = 0 ∧
        (((a / 4096 + k : Nat) : Int) < 32 →
          (p.data ((a / 4096 + k : Nat) : Int)).offset = -1))) →
    unmapLoop sel p a free n = some p := by
  intro n
  induction n with
  | zero => intro sel p a free _; rfl
  | succ m ih =>
    intro sel p a free hcond
    have hshift2 : ∀ k : Nat, k < m →
        p.walkOk (((a + 4096) / 4096 + k : Nat) : Int) = true →
        (p.pagetable (((a + 4096) / 4096 + k : Nat) : Int) = 0 ∧
          ((((a + 4096) / 4096 + k : Nat) : Int) < 32 →
            (p.data (((a + 4096) / 4096 + k : Nat) : Int)).offset = -1)) := by
      intro k hk
      have heq : ((a + 4096) / 4096 + k : Nat) = (a / 4096 + (k + 1) : Nat) := by
        omega
      rw [heq]
      exact hcond (k + 1) (by omega)
    by_cases hwalk : p.walkOk ((a / 4096 : Nat) : Int) = true
    · obtain ⟨hpt0, hoff⟩ := hcond 0 (by omega)
        (by rw [Nat.add_zero]; exact hwalk)
      rw [Nat.add_zero] at hpt0 hoff
      have hv0 : p.pagetable ((a / 4096 : Nat) : Int) &&& PTE_V = 0 := by
        rw [hpt0]
        rfl
      simp only [unmapLoop, hwalk, if_true, ne_eq, hv0, not_true_eq_false,
        if_false]
      have hpt : Function.update p.pagetable ((a / 4096 : Nat) : Int) 0
          = p.pagetable := by
        rw [← hpt0]
        exact Function.update_eq_self _ _
      by_cases hlow : sel ≠ Selection.NONE ∧ ((a / 4096 : Nat) : Int) < 32
      · rw [if_pos hlow]
        have hd : Function.update p.data ((a / 4096 : Nat) : Int)
            { inUse := (p.data ((a / 4096 : Nat) : Int)).inUse,
              offset := -1,
              agingCounter :=
                (p.data ((a / 4096 : Nat) : Int)).agingCounter }
            = p.data := by
          rw [pagemeta_offset_eta _ (hoff hlow.2)]
          exact Function.update_eq_self _ _
        have hstate : ({ p with
            data := Function.update p.data ((a / 4096 : Nat) : Int)
              { inUse := (p.data ((a / 4096 : Nat) : Int)).inUse,
                offset := -1,
                agingCounter :=
                  (p.data ((a / 4096 : Nat) : Int)).agingCounter },
            pagetable := Function.update p.pagetable ((a / 4096 : Nat) : Int)
              0 } : Proc) = p := by
          rw [hd, hpt]
        refine Eq.trans (congrArg
          (fun s => unmapLoop sel s (a + 4096) free m) hstate) ?_
        exact ih sel p (a + 4096) free hshift2
      · rw [if_neg hlow]
        have hstate : ({ p with
            pagetable := Function.update p.pagetable ((a / 4096 : Nat) : Int)
              0 } : Proc) = p := by
          rw [hpt]
        refine Eq.trans (congrArg
          (fun s => unmapLoop sel s (a + 4096) free m) hstate) ?_
        exact ih sel p (a + 4096) free hshift2
    · simp only [unmapLoop, hwalk, if_false]
      exact ih sel p (a + 4096) free hshift2

/-- uvmunmap is a no-op on an aligned, already unmapped range. -/
theorem uvmunmap_noop (sel : Selection) (p : Proc) (va : Nat) (npages : Nat)
    (free : Bool) (hva : va % 4096 = 0)
    (hcond : ∀ k : Nat, k < npages →
      p.walkOk ((va / 4096 + k : Nat) : Int) = true →
      (p.pagetable ((va / 4096 + k : Nat) : Int) = 0 ∧
        (((va / 4096 + k : Nat) : Int) < 32 →
          (p.data ((va / 4096 + k : Nat) : Int)).offset = -1))) :
    uvmunmap sel p va npages free = some p := by
  unfold uvmunmap
  have h : ¬ va % 4096 ≠ 0 := by omega
  rw [if_neg h]
  exact unmapLoop_noop npages sel p va free hcond

/-- Inv preservation for the install step of the uvmalloc loop: starting
from a state p2 in which page idx is free and the residency cap is not yet
reached, the loop marks the page in use, bumps pagesInMemory, runs
initAging (which under SCFIFO enqueues the page) and writes the fresh
aging counter.  All fields outside the metadata of page idx and the queue
are framed. -/
theorem allocInstall_Inv (sel : Selection) (p2 p3 q : Proc) (idx : Int)
    (m : PageMeta) (hsel : sel ≠ Selection.NONE) (hInv : Inv sel p2)
    (hi0 : 0 ≤ idx) (hi32 : idx < 32)
    (hnot : (p2.data idx).inUse = false)
    (hcap : p2.pagesInMemory < 16) (hm : m.inUse = true)
    (hp3 : p3 = { p2 with data := Function.update p2.data idx m, pagesInMemory := p2.pagesInMemory + 1 })
    (hq : q = { (initAging sel idx p3).2 with data := Function.update (initAging sel idx p3).2.data idx { (initAging sel idx p3).2.data idx with agingCounter := (initAging sel idx p3).1 } }) :
    Inv sel q ∧ q.pagesInMemory = p2.pagesInMemory + 1 ∧
      (q.data idx).inUse = true ∧
      (q.data idx).agingCounter = (initAging sel idx p3).1 ∧
      (∀ y : Int, y ≠ idx → q.data y = p2.data y) ∧
      q.pagetable = p2.pagetable ∧ q.walkOk = p2.walkOk ∧ q.pid = p2.pid := by
  have hia_d : (initAging sel idx p3).2.data = Function.update p2.data idx m := by
    rw [initAging_data, hp3]
  have hqdata : q.data = Function.update p2.data idx
      ⟨m.inUse, m.offset, (initAging sel idx p3).1⟩ := by
    rw [hq]
    show Function.update (initAging sel idx p3).2.data idx
      { (initAging sel idx p3).2.data idx with
          agingCounter := (initAging sel idx p3).1 } = _
    rw [hia_d, Function.update_same, Function.update_idem]
  have hqpim : q.pagesInMemory = p2.pagesInMemory + 1 := by
    rw [hq]
    show (initAging sel idx p3).2.pagesInMemory = _
    rw [initAging_pim, hp3]
  have hqy : ∀ y : Int, y ≠ idx → q.data y = p2.data y := by
    intro y hy
    rw [hqdata, Function.update_noteq hy]
  have hqidxU : (q.data idx).inUse = true := by
    rw [hqdata, Function.update_same]
    exact hm
  have hqidxA : (q.data idx).agingCounter = (initAging sel idx p3).1 := by
    rw [hqdata, Function.update_same]
  have hqpt : q.pagetable = p2.pagetable := by
    rw [hq]
    show (initAging sel idx p3).2.pagetable = _
    rw [initAging_pagetable, hp3]
  have hqwo : q.walkOk = p2.walkOk := by
    rw [hq]
    show (initAging sel idx p3).2.walkOk = _
    rw [initAging_walkOk, hp3]
  have hqpid : q.pid = p2.pid := by
    rw [hq]
    show (initAging sel idx p3).2.pid = _
    rw [initAging_pid, hp3]
  have hqh : q.head = (initAging sel idx p3).2.head := by rw [hq]
  have hqt : q.tail = (initAging sel idx p3).2.tail := by rw [hq]
  have hqn : q.numOfPages = (initAging sel idx p3).2.numOfPages := by rw [hq]
  have hqpg : q.pages = (initAging sel idx p3).2.pages := by rw [hq]
  obtain ⟨hc, hcap0, hw, hrest⟩ := hInv
  have hcount := countInUse_update_true p2 q idx hi0 hi32 hnot
    ⟨m.inUse, m.offset, (initAging sel idx p3).1⟩ hm hqdata
  by_cases hsc : sel = Selection.SCFIFO
  · subst hsc
    rw [if_pos rfl] at hrest
    obtain ⟨hnd, hmem⟩ := hrest
    have hnum := Inv_scfifo_num p2 ⟨hc, hcap0, hw, by
      rw [if_pos rfl]; exact ⟨hnd, hmem⟩⟩
    have hwp3 : wfQ p3 :=
      wfQ_of_eq p2 p3 (by rw [hp3]) (by rw [hp3]) (by rw [hp3]) hw
    have hn3eq : p3.numOfPages = p2.numOfPages := by rw [hp3]
    have hn32 : p3.numOfPages < 32 := by omega
    have hia : (initAging Selection.SCFIFO idx p3).2 = inQ p3 idx :=
      initAging_SCFIFO idx p3
    have hql3 : queueList p3 = queueList p2 :=
      queueList_congr p2 p3 (by rw [hp3]) (by rw [hp3]) (by rw [hp3])
    have hqlist : queueList q = queueList p2 ++ [idx] := by
      have h1 : queueList q = queueList (initAging Selection.SCFIFO idx p3).2 :=
        queueList_congr _ q hqh hqn hqpg
      rw [h1, hia, queueList_inQ p3 idx hwp3 hn32, hql3]
    have hinot : idx ∉ queueList p2 := by
      intro hx
      have := ((hmem idx).mp hx).2.2
      rw [hnot] at this
      cases this
    rw [hia] at hqh hqt hqn
    refine ⟨⟨by omega, by omega, ?_, ?_⟩, hqpim, hqidxU, hqidxA, hqy, hqpt,
      hqwo, hqpid⟩
    · exact wfQ_of_eq (inQ p3 idx) q hqh hqt hqn (wfQ_inQ p3 idx hwp3 hn32)
    · rw [if_pos rfl]
      constructor
      · rw [hqlist, List.nodup_append]
        refine ⟨hnd, List.nodup_singleton idx, fun a ha hb => ?_⟩
        rw [List.mem_singleton] at hb
        exact hinot (hb ▸ ha)
      · intro x
        rw [hqlist]
        simp only [List.mem_append, List.mem_singleton]
        constructor
        · rintro (hx | hx)
          · obtain ⟨h0, h32, hxu⟩ := (hmem x).mp hx
            refine ⟨h0, h32, ?_⟩
            have hxne : x ≠ idx := by
              intro hcontra
              rw [hcontra, hnot] at hxu
              cases hxu
            rw [hqdata, Function.update_noteq hxne]
            exact hxu
          · refine ⟨by omega, by omega, ?_⟩
            rw [hx, hqdata, Function.update_same]
            exact hm
        · rintro ⟨h0, h32, hxu⟩
          by_cases hxi : x = idx
          · exact Or.inr hxi
          · left
            rw [hqdata, Function.update_noteq hxi] at hxu
            exact (hmem x).mpr ⟨h0, h32, hxu⟩
  · have hia : (initAging sel idx p3).2 = p3 := initAging_notSCFIFO sel idx p3 hsc
    rw [if_neg hsc] at hrest
    have hh2 : q.head = p2.head := by rw [hqh, hia, hp3]
    have ht2 : q.tail = p2.tail := by rw [hqt, hia, hp3]
    have hn2 : q.numOfPages = p2.numOfPages := by rw [hqn, hia, hp3]
    refine ⟨⟨by omega, by omega, ?_, ?_⟩, hqpim, hqidxU, hqidxA, hqy, hqpt,
      hqwo, hqpid⟩
    · exact wfQ_of_eq p2 q hh2 ht2 hn2 hw
    · rw [if_neg hsc, hn2]
      exact hrest

/-- A state with a fresh-installed in-use page at an index at least 3 and a
positive resident count satisfies every policy's victim precondition (for
NFUA the page's aging counter must still be below 2^31). -/
theorem victimOk_of_fresh (sel : Selection) (q : Proc) (j : Nat)
    (hsel : sel ≠ Selection.NONE) (h3 : 3 ≤ j) (h32 : j < 32)
    (hu : (q.data (j : Int)).inUse = true)
    (ha : sel = Selection.NFUA → (q.data (j : Int)).agingCounter < 2 ^ 31)
    (hpim : 1 ≤ q.pagesInMemory) : victimOk sel q := by
  cases sel with
  | NONE => exact absurd rfl hsel
  | NFUA => exact ⟨j, h3, h32, hu, ha rfl⟩
  | LAPA => exact ⟨j, h3, h32, hu⟩
  | SCFIFO => exact hpim

/-- Inv preservation by the uvmalloc growth loop under a paging policy for
a process with pid above 1, assuming every kalloc in the run succeeds and
every mappages walk allocation succeeds, the target size stays within the
32-page virtual cap, the growth range starts at or above page 3 on a page
boundary with all its pages free and unmapped, and victim selection
succeeds if the loop starts at the residency cap. -/
theorem uvmallocLoop_Inv : ∀ (fuel : Nat) (sel : Selection) (p : Proc)
    (a newsz oldszR k : Nat) (kR : Nat → Nat) (mO : Nat → Bool),
    sel ≠ Selection.NONE → 1 < p.pid → Inv sel p →
    (∀ j : Nat, kR j ≠ 0) → (∀ j : Nat, mO j = true) →
    newsz ≤ 32 * 4096 → 3 * 4096 ≤ a → a % 4096 = 0 →
    (∀ j : Nat, a ≤ 4096 * j → j < 32 →
      (p.data (j : Int)).inUse = false ∧ p.pagetable (j : Int) &&& PTE_V = 0) →
    (16 ≤ p.pagesInMemory → victimOk sel p) →
    ∀ r : Nat × Proc, uvmallocLoop sel p a newsz oldszR k kR mO fuel = some r →
      Inv sel r.2 := by
  intro fuel
  induction fuel with
  | zero =>
    intro sel p a newsz oldszR k kR mO hsel hpid hInv _ _ _ _ _ _ _ r hq
    simp only [uvmallocLoop, Option.some.injEq] at hq
    rw [← hq]
    exact hInv
  | succ f ih =>
    intro sel p a newsz oldszR k kR mO hsel hpid hInv hkR hmO hnsz ha3 hal
      hfresh hvic r hq
    simp only [uvmallocLoop] at hq
    by_cases ha : a < newsz
    · rw [if_pos ha, if_pos hpid] at hq
      have h32x : ¬ 32 < a / 4096 := by omega
      rw [if_neg h32x] at hq
      have hOk : mO k = true := hmO k
      have hidx3 : 3 ≤ a / 4096 := by omega
      have hfree_idx := hfresh (a / 4096) (by omega) (by omega)
      by_cases hcap : 16 ≤ p.pagesInMemory
      · rw [if_pos hcap] at hq
        obtain ⟨hInv1, hpim1, hdpres, hptpres⟩ := page_to_file_Inv sel p
          (getOffset p) hsel hInv (hvic hcap)
        set p1 : Proc := page_to_file sel p (getOffset p) with hp1def
        have hVal : p1.pagetable ((a / 4096 : Nat) : Int) &&& PTE_V = 0 :=
          hptpres _ hfree_idx.1 hfree_idx.2
        have hmp : mappagesOne p1 ((a / 4096 : Nat) : Int) (kR k) (PTE_W ||| PTE_R ||| PTE_X ||| PTE_U) (mO k) = some (0, { p1 with pagetable := Function.update p1.pagetable ((a / 4096 : Nat) : Int) (PA2PTE (kR k) ||| (PTE_W ||| PTE_R ||| PTE_X ||| PTE_U) ||| PTE_V), walkOk := Function.update p1.walkOk ((a / 4096 : Nat) : Int) true }) := by
          unfold mappagesOne
          rw [hOk, if_neg (show ¬(true = false) by decide),
            if_neg (show ¬(p1.pagetable ((a / 4096 : Nat) : Int) &&& PTE_V ≠ 0) from fun h => h hVal)]
        rw [hmp] at hq
        set p2 : Proc := { p1 with pagetable := Function.update p1.pagetable ((a / 4096 : Nat) : Int) (PA2PTE (kR k) ||| (PTE_W ||| PTE_R ||| PTE_X ||| PTE_U) ||| PTE_V), walkOk := Function.update p1.walkOk ((a / 4096 : Nat) : Int) true } with hp2def
        set p3 : Proc := { p2 with data := Function.update p2.data ((a / 4096 : Nat) : Int) { p2.data ((a / 4096 : Nat) : Int) with inUse := true, offset := -1 }, pagesInMemory := p2.pagesInMemory + 1 } with hp3def
        set P4 : Proc := { (initAging sel ((a / 4096 : Nat) : Int) p3).2 with data := Function.update (initAging sel ((a / 4096 : Nat) : Int) p3).2.data ((a / 4096 : Nat) : Int) { (initAging sel ((a / 4096 : Nat) : Int) p3).2.data ((a / 4096 : Nat) : Int) with agingCounter := (initAging sel ((a / 4096 : Nat) : Int) p3).1 } } with hP4def
        have hq2 : uvmallocLoop sel P4 (a + 4096) newsz oldszR (k + 1) kR mO f
            = some r := hq
        have hInv2 : Inv sel p2 :=
          Inv_congr sel p1 p2 rfl rfl rfl rfl rfl (fun _ => rfl) hInv1
        have hnot2 : (p2.data ((a / 4096 : Nat) : Int)).inUse = false := by
          show (p1.data ((a / 4096 : Nat) : Int)).inUse = false
          rw [hdpres _ hfree_idx.1]
          exact hfree_idx.1
        have e1 : p2.pagesInMemory = p.pagesInMemory - 1 := by
          show p1.pagesInMemory = _
          exact hpim1
        have hcap16 : p.pagesInMemory ≤ 16 := hInv.2.1
        have hcap2 : p2.pagesInMemory < 16 := by omega
        obtain ⟨hInvP4, hpimP4, hUP4, hAP4, hyP4, hptP4, hwoP4, hpidP4⟩ :=
          allocInstall_Inv sel p2 p3 P4 ((a / 4096 : Nat) : Int)
            ⟨true, -1, (p2.data ((a / 4096 : Nat) : Int)).agingCounter⟩ hsel
            hInv2 (by omega) (by omega) hnot2 hcap2 rfl hp3def hP4def
        have hpid4 : P4.pid = p.pid := by
          rw [hpidP4]
          show p1.pid = p.pid
          exact (getIndexToRemove_frame sel p).2.2.1
        have hvic4 : victimOk sel P4 := by
          refine victimOk_of_fresh sel P4 (a / 4096) hsel hidx3 (by omega)
            hUP4 ?_ ?_
          · intro hNF
            rw [hAP4, hNF]
            show (0 : Nat) < 2 ^ 31
            norm_num
          · rw [hpimP4]
            omega
        have hfresh4 : ∀ j : Nat, a + 4096 ≤ 4096 * j → j < 32 →
            (P4.data (j : Int)).inUse = false ∧
              P4.pagetable (j : Int) &&& PTE_V = 0 := by
          intro j hj hj32
          have hjne : (j : Int) ≠ ((a / 4096 : Nat) : Int) := by omega
          have hfr := hfresh j (by omega) hj32
          constructor
          · rw [hyP4 _ hjne]
            show (p1.data (j : Int)).inUse = false
            rw [hdpres _ hfr.1]
            exact hfr.1
          · rw [hptP4]
            show Function.update p1.pagetable ((a / 4096 : Nat) : Int) (PA2PTE (kR k) ||| (PTE_W ||| PTE_R ||| PTE_X ||| PTE_U) ||| PTE_V) (j : Int) &&& PTE_V = 0
            rw [Function.update_noteq hjne]
            exact hptpres _ hfr.1 hfr.2
        exact ih sel P4 (a + 4096) newsz oldszR (k + 1) kR mO hsel
          (by rw [hpid4]; exact hpid) hInvP4 hkR hmO hnsz (by omega) (by omega)
          hfresh4 (fun _ => hvic4) r hq2
      · rw [if_neg hcap, if_neg (hkR k)] at hq
        have hVal : p.pagetable ((a / 4096 : Nat) : Int) &&& PTE_V = 0 :=
          hfree_idx.2
        have hmp : mappagesOne p ((a / 4096 : Nat) : Int) (kR k) (PTE_W ||| PTE_X ||| PTE_R ||| PTE_U) (mO k) = some (0, { p with pagetable := Function.update p.pagetable ((a / 4096 : Nat) : Int) (PA2PTE (kR k) ||| (PTE_W ||| PTE_X ||| PTE_R ||| PTE_U) ||| PTE_V), walkOk := Function.update p.walkOk ((a / 4096 : Nat) : Int) true }) := by
          unfold mappagesOne
          rw [hOk, if_neg (show ¬(true = false) by decide),
            if_neg (show ¬(p.pagetable ((a / 4096 : Nat) : Int) &&& PTE_V ≠ 0) from fun h => h hVal)]
        rw [hmp] at hq
        set p2 : Proc := { p with pagetable := Function.update p.pagetable ((a / 4096 : Nat) : Int) (PA2PTE (kR k) ||| (PTE_W ||| PTE_X ||| PTE_R ||| PTE_U) ||| PTE_V), walkOk := Function.update p.walkOk ((a / 4096 : Nat) : Int) true } with hp2def
        set p3 : Proc := { p2 with data := Function.update p2.data ((a / 4096 : Nat) : Int) { p2.data ((a / 4096 : Nat) : Int) with inUse := true }, pagesInMemory := p2.pagesInMemory + 1 } with hp3def
        set P4 : Proc := { (initAging sel ((a / 4096 : Nat) : Int) p3).2 with data := Function.update (initAging sel ((a / 4096 : Nat) : Int) p3).2.data ((a / 4096 : Nat) : Int) { (initAging sel ((a / 4096 : Nat) : Int) p3).2.data ((a / 4096 : Nat) : Int) with agingCounter := (initAging sel ((a / 4096 : Nat) : Int) p3).1 } } with hP4def
        have hq2 : uvmallocLoop sel P4 (a + 4096) newsz oldszR (k + 1) kR mO f
            = some r := hq
        have hInv2 : Inv sel p2 :=
          Inv_congr sel p p2 rfl rfl rfl rfl rfl (fun _ => rfl) hInv
        have hnot2 : (p2.data ((a / 4096 : Nat) : Int)).inUse = false := by
          show (p.data ((a / 4096 : Nat) : Int)).inUse = false
          exact hfree_idx.1
        have e1 : p2.pagesInMemory = p.pagesInMemory := by
          show p.pagesInMemory = _
          rfl
        have hcap2 : p2.pagesInMemory < 16 := by omega
        obtain ⟨hInvP4, hpimP4, hUP4, hAP4, hyP4, hptP4, hwoP4, hpidP4⟩ :=
          allocInstall_Inv sel p2 p3 P4 ((a / 4096 : Nat) : Int)
            ⟨true, (p2.data ((a / 4096 : Nat) : Int)).offset, (p2.data ((a / 4096 : Nat) : Int)).agingCounter⟩
            hsel hInv2 (by omega) (by omega) hnot2 hcap2 rfl hp3def hP4def
        have hpid4 : P4.pid = p.pid := by
          rw [hpidP4]
        have hvic4 : victimOk sel P4 := by
          refine victimOk_of_fresh sel P4 (a / 4096) hsel hidx3 (by omega)
            hUP4 ?_ ?_
          · intro hNF
            rw [hAP4, hNF]
            show (0 : Nat) < 2 ^ 31
            norm_num
          · rw [hpimP4]
            have := hInv2.1
            omega
        have hfresh4 : ∀ j : Nat, a + 4096 ≤ 4096 * j → j < 32 →
            (P4.data (j : Int)).inUse = false ∧
              P4.pagetable (j : Int) &&& PTE_V = 0 := by
          intro j hj hj32
          have hjne : (j : Int) ≠ ((a / 4096 : Nat) : Int) := by omega
          have hfr := hfresh j (by omega) hj32
          constructor
          · rw [hyP4 _ hjne]
            show (p.data (j : Int)).inUse = false
            exact hfr.1
          · rw [hptP4]
            show Function.update p.pagetable ((a / 4096 : Nat) : Int) (PA2PTE (kR k) ||| (PTE_W ||| PTE_X ||| PTE_R ||| PTE_U) ||| PTE_V) (j : Int) &&& PTE_V = 0
            rw [Function.update_noteq hjne]
            exact hfr.2
        exact ih sel P4 (a + 4096) newsz oldszR (k + 1) kR mO hsel
          (by rw [hpid4]; exact hpid) hInvP4 hkR hmO hnsz (by omega) (by omega)
          hfresh4 (fun _ => hvic4) r hq2
    · rw [if_neg ha, Option.some.injEq] at hq
      rw [← hq]
      exact hInv

/-- Inv preservation by uvmalloc itself, under the loop's side conditions
taken at the rounded old size. -/
theorem uvmalloc_Inv (sel : Selection) (p : Proc) (oldsz newsz : Nat)
    (kR : Nat → Nat) (mO : Nat → Bool)
    (hsel : sel ≠ Selection.NONE) (hpid : 1 < p.pid) (hInv : Inv sel p)
    (hkR : ∀ j : Nat, kR j ≠ 0) (hmO : ∀ j : Nat, mO j = true)
    (hnsz : newsz ≤ 32 * 4096) (hold : 3 * 4096 ≤ PGROUNDUP oldsz)
    (hfresh : ∀ j : Nat, PGROUNDUP oldsz ≤ 4096 * j → j < 32 →
      (p.data (j : Int)).inUse = false ∧ p.pagetable (j : Int) &&& PTE_V = 0)
    (hvic : 16 ≤ p.pagesInMemory → victimOk sel p) :
    ∀ r : Nat × Proc, uvmalloc sel p oldsz newsz kR mO = some r →
      Inv sel r.2 := by
  intro r hq
  have halign : PGROUNDUP oldsz % 4096 = 0 := by
    unfold PGROUNDUP
    omega
  cases sel with
  | NONE => exact absurd rfl hsel
  | NFUA =>
    simp only [uvmalloc] at hq
    by_cases hlt : newsz < oldsz
    · rw [if_pos hlt, Option.some.injEq] at hq
      rw [← hq]
      exact hInv
    · rw [if_neg hlt] at hq
      exact uvmallocLoop_Inv _ _ _ _ _ _ _ _ _ hsel hpid hInv hkR hmO hnsz
        hold halign hfresh hvic r hq
  | LAPA =>
    simp only [uvmalloc] at hq
    by_cases hlt : newsz < oldsz
    · rw [if_pos hlt, Option.some.injEq] at hq
      rw [← hq]
      exact hInv
    · rw [if_neg hlt] at hq
      exact uvmallocLoop_Inv _ _ _ _ _ _ _ _ _ hsel hpid hInv hkR hmO hnsz
        hold halign hfresh hvic r hq
  | SCFIFO =>
    simp only [uvmalloc] at hq
    by_cases hlt : newsz < oldsz
    · rw [if_pos hlt, Option.some.injEq] at hq
      rw [← hq]
      exact hInv
    · rw [if_neg hlt] at hq
      exact uvmallocLoop_Inv _ _ _ _ _ _ _ _ _ hsel hpid hInv hkR hmO hnsz
        hold halign hfresh hvic r hq

/-- Every value the uvmalloc growth loop can return is the requested size,
0, or the 64-bit representation of -1. -/
theorem uvmallocLoop_val : ∀ (fuel : Nat) (sel : Selection) (p : Proc)
    (a newsz oldszR k : Nat) (kR : Nat → Nat) (mO : Nat → Bool)
    (r : Nat × Proc),
    uvmallocLoop sel p a newsz oldszR k kR mO fuel = some r →
    r.1 = newsz ∨ r.1 = 0 ∨ r.1 = 2 ^ 64 - 1 := by
  intro fuel
  induction fuel with
  | zero =>
    intro sel p a newsz oldszR k kR mO r hq
    simp only [uvmallocLoop, Option.some.injEq] at hq
    left
    rw [← hq]
  | succ f ih =>
    intro sel p a newsz oldszR k kR mO r hq
    simp only [uvmallocLoop] at hq
    repeat' split at hq
    all_goals first
      | exact Option.noConfusion hq
      | exact ih _ _ _ _ _ _ _ _ _ hq
      | (rw [Option.some.injEq] at hq
         rw [← hq]
         first
           | exact Or.inl rfl
           | exact Or.inr (Or.inl rfl)
           | exact Or.inr (Or.inr rfl))

/-- Every value uvmalloc can return under a paging policy is the requested
size, 0, the old size (when shrinking was requested), or 2^64 - 1. -/
theorem uvmalloc_val (sel : Selection) (p : Proc) (oldsz newsz : Nat)
    (kR : Nat → Nat) (mO : Nat → Bool) (hsel : sel ≠ Selection.NONE)
    (r : Nat × Proc) (hq : uvmalloc sel p oldsz newsz kR mO = some r) :
    r.1 = newsz ∨ r.1 = 0 ∨ r.1 = oldsz ∨ r.1 = 2 ^ 64 - 1 := by
  cases sel with
  | NONE => exact absurd rfl hsel
  | NFUA =>
    simp only [uvmalloc] at hq
    by_cases hlt : newsz < oldsz
    · rw [if_pos hlt, Option.some.injEq] at hq
      rw [← hq]
      exact Or.inr (Or.inr (Or.inl rfl))
    · rw [if_neg hlt] at hq
      rcases uvmallocLoop_val _ _ _ _ _ _ _ _ _ _ hq with h | h | h
      · exact Or.inl h
      · exact Or.inr (Or.inl h)
      · exact Or.inr (Or.inr (Or.inr h))
  | LAPA =>
    simp only [uvmalloc] at hq
    by_cases hlt : newsz < oldsz
    · rw [if_pos hlt, Option.some.injEq] at hq
      rw [← hq]
      exact Or.inr (Or.inr (Or.inl rfl))
    · rw [if_neg hlt] at hq
      rcases uvmallocLoop_val _ _ _ _ _ _ _ _ _ _ hq with h | h | h
      · exact Or.inl h
      · exact Or.inr (Or.inl h)
      · exact Or.inr (Or.inr (Or.inr h))
  | SCFIFO =>
    simp only [uvmalloc] at hq
    by_cases hlt : newsz < oldsz
    · rw [if_pos hlt, Option.some.injEq] at hq
      rw [← hq]
      exact Or.inr (Or.inr (Or.inl rfl))
    · rw [if_neg hlt] at hq
      rcases uvmallocLoop_val _ _ _ _ _ _ _ _ _ _ hq with h | h | h
      · exact Or.inl h
      · exact Or.inr (Or.inl h)
      · exact Or.inr (Or.inr (Or.inr h))

/-- When growth starts beyond the 32-page boundary, the first loop
iteration rejects it by returning the 64-bit representation of -1 (and not
0). -/
theorem uvmalloc_reject (sel : Selection) (p : Proc) (oldsz newsz : Nat)
    (kR : Nat → Nat) (mO : Nat → Bool) (hsel : sel ≠ Selection.NONE)
    (hpid : 1 < p.pid) (hle : ¬ newsz < oldsz)
    (hbig : 33 * 4096 ≤ PGROUNDUP oldsz) (hlt : PGROUNDUP oldsz < newsz) :
    uvmalloc sel p oldsz newsz kR mO = some (2 ^ 64 - 1, p) := by
  cases sel with
  | NONE => exact absurd rfl hsel
  | NFUA =>
    simp only [uvmalloc]
    rw [if_neg hle]
    simp only [uvmallocLoop]
    rw [if_pos hlt, if_pos hpid,
      if_pos (show 32 < PGROUNDUP oldsz / 4096 by omega)]
  | LAPA =>
    simp only [uvmalloc]
    rw [if_neg hle]
    simp only [uvmallocLoop]
    rw [if_pos hlt, if_pos hpid,
      if_pos (show 32 < PGROUNDUP oldsz / 4096 by omega)]
  | SCFIFO =>
    simp only [uvmalloc]
    rw [if_neg hle]
    simp only [uvmallocLoop]
    rw [if_pos hlt, if_pos hpid,
      if_pos (show 32 < PGROUNDUP oldsz / 4096 by omega)]

/-! Helper lemmas for the swap_in install record and PTE bit values. -/

theorem testBit0_or_V (x : Nat) : (x ||| PTE_V).testBit 0 = true := by
  rw [Nat.testBit_or, PTE_V_eq, Nat.testBit_two_pow]
  simp

/-- Bits 0 and 9 of the PTE written by swap_in's at-capacity branch: valid
set, paged-out clear. -/
theorem swap_in_pte_bits (flags buff : Nat) :
    ((PA2PTE buff ||| ((flags &&& (U64MASK ^^^ PTE_PG)) ||| PTE_V)).testBit 0
        = true) ∧
      ((PA2PTE buff ||| ((flags &&& (U64MASK ^^^ PTE_PG)) ||| PTE_V)).testBit 9
        = false) := by
  constructor
  · rw [Nat.testBit_or, Nat.testBit_or, PTE_V_eq, Nat.testBit_two_pow]
    simp
  · rw [Nat.testBit_or, Nat.testBit_or, Nat.testBit_and, testBit_maskPG_self,
      PTE_V_eq, Nat.testBit_two_pow, testBit_PA2PTE_low buff 9 (by norm_num)]
    simp

theorem swap_in_install_data (sel : Selection) (p1x : Proc) (i : Int) :
    ({ (initAging sel i p1x).2 with data := Function.update (initAging sel i p1x).2.data i { (initAging sel i p1x).2.data i with agingCounter := (initAging sel i p1x).1, offset := -1, inUse := true }, pagesInMemory := (initAging sel i p1x).2.pagesInMemory + 1 } : Proc).data i
      = ⟨true, -1, (initAging sel i p1x).1⟩ := by
  show Function.update (initAging sel i p1x).2.data i _ i = _
  rw [Function.update_same]

theorem swap_in_install_pt (sel : Selection) (p1x : Proc) (i : Int) :
    ({ (initAging sel i p1x).2 with data := Function.update (initAging sel i p1x).2.data i { (initAging sel i p1x).2.data i with agingCounter := (initAging sel i p1x).1, offset := -1, inUse := true }, pagesInMemory := (initAging sel i p1x).2.pagesInMemory + 1 } : Proc).pagetable
      = p1x.pagetable := by
  show (initAging sel i p1x).2.pagetable = _
  exact initAging_pagetable sel i p1x

theorem swap_in_install_pim (sel : Selection) (p1x : Proc) (i : Int) :
    ({ (initAging sel i p1x).2 with data := Function.update (initAging sel i p1x).2.data i { (initAging sel i p1x).2.data i with agingCounter := (initAging sel i p1x).1, offset := -1, inUse := true }, pagesInMemory := (initAging sel i p1x).2.pagesInMemory + 1 } : Proc).pagesInMemory
      = p1x.pagesInMemory + 1 := by
  show (initAging sel i p1x).2.pagesInMemory + 1 = _
  rw [initAging_pim]

theorem Inv_NFUA_procEmpty : Inv Selection.NFUA procEmpty := by
  unfold Inv
  rw [if_neg (show Selection.NFUA ≠ Selection.SCFIFO from by decide)]
  refine ⟨by decide, by decide, by decide, by decide⟩

/-! The frozen claims. -/

/-- C3 (amended): provided some in-use page with index at least 3 has an
aging counter below 2^31, nfua returns the index of the in-use page with
index at least 3 whose aging counter is smallest, ties broken by the
lowest index, and never an index below 3. -/
theorem claim_C3 (p : Proc)
    (hex : ∃ i : Nat, 3 ≤ i ∧ i < 32 ∧ (p.data (i : Int)).inUse = true ∧
      (p.data (i : Int)).agingCounter < 2 ^ 31) :
    ∃ jv : Nat, 3 ≤ jv ∧ jv < 32 ∧ nfua p = (jv : Int) ∧
      (p.data (jv : Int)).inUse = true ∧
      (∀ j : Nat, 3 ≤ j → j < 32 → (p.data (j : Int)).inUse = true →
        (p.data (jv : Int)).agingCounter ≤ (p.data (j : Int)).agingCounter) ∧
      (∀ j : Nat, 3 ≤ j → j < jv → (p.data (j : Int)).inUse = true →
        (p.data (jv : Int)).agingCounter < (p.data (j : Int)).agingCounter) := by
  rcases nfua_cases p with ⟨hm1, hall⟩ | ⟨jv, h1, h2, h3, h4, h5, h6, h7⟩
  · obtain ⟨i, hi3, hi32, hiu, hia⟩ := hex
    exact absurd (hall i hi3 hi32 hiu) (by omega)
  · exact ⟨jv, h1, h2, h3, h4, h6, h7⟩

theorem claim_C3_witness : ∃ jv : Nat, 3 ≤ jv ∧ jv < 32 ∧
    nfua procAging = (jv : Int) ∧ (procAging.data (jv : Int)).inUse = true ∧
    (∀ j : Nat, 3 ≤ j → j < 32 → (procAging.data (j : Int)).inUse = true →
      (procAging.data (jv : Int)).agingCounter
        ≤ (procAging.data (j : Int)).agingCounter) ∧
    (∀ j : Nat, 3 ≤ j → j < jv → (procAging.data (j : Int)).inUse = true →
      (procAging.data (jv : Int)).agingCounter
        < (procAging.data (j : Int)).agingCounter) :=
  claim_C3 procAging ⟨3, by decide, by decide, by decide, by decide⟩

/-- C3 counterexample: in procAgingHigh page 3 is in use with index at
least 3, so the claim requires nfua to return 3, but nfua returns -1: the
aging counter 2^31 never beats the scan's strict initial 1 <<< 31 minimum. -/
theorem claim_C3_counterexample :
    (procAgingHigh.data ((3 : Nat) : Int)).inUse = true ∧
      nfua procAgingHigh = -1 ∧ nfua procAgingHigh ≠ ((3 : Nat) : Int) := by
  refine ⟨by decide, by decide, by decide⟩

/-- C4: when the whole non-empty queue has accessed bits set, scfifo
terminates after one full rotation, returns the original first page with
every queued page's accessed bit now cleared (second chances re-enqueued
in order), and dequeues it: the queue becomes the tail of the original. -/
theorem claim_C4 (p : Proc) (hw : wfQ p) (hnd : (queueList p).Nodup)
    (hpos : 0 < p.numOfPages)
    (hA : ∀ x ∈ queueList p, p.pagetable x &&& PTE_A ≠ 0) :
    (scfifo p).1 = (queueList p).headI ∧
      queueList (scfifo p).2 = (queueList p).tail ∧
      (scfifo p).2.numOfPages = p.numOfPages - 1 ∧
      (∀ y : Int, (scfifo p).2.pagetable y
        = if y ∈ queueList p then p.pagetable y &&& (U64MASK ^^^ PTE_A)
          else p.pagetable y) := by
  obtain ⟨m1, m2, m3, m4, m5, m6⟩ := scfifo_allA_spec p hw hnd hpos hA
  exact ⟨m1, m5, m4, m6⟩

theorem claim_C4_witness : (scfifo procQ2).1 = (queueList procQ2).headI ∧
    queueList (scfifo procQ2).2 = (queueList procQ2).tail ∧
    (scfifo procQ2).2.numOfPages = procQ2.numOfPages - 1 ∧
    (∀ y : Int, (scfifo procQ2).2.pagetable y
      = if y ∈ queueList procQ2 then procQ2.pagetable y &&& (U64MASK ^^^ PTE_A)
        else procQ2.pagetable y) :=
  claim_C4 procQ2 (by decide) (by decide) (by decide) (by decide)

/-- C5 (amended): removePage dequeues every element once and re-enqueues
the survivors, so the result holds exactly the prior elements other than
the target, but cyclically rotated - for prior content A ++ t :: C it is
rotL (C ++ A) (|C| - 1) - not in their prior head-to-tail order. -/
theorem claim_C5 (p : Proc) (t : Int) (A C : List Int) (h : wfQ p)
    (hsplit : queueList p = A ++ t :: C) (hA : t ∉ A) (hC : t ∉ C) :
    sameMeta p (removePage p t) ∧ (removePage p t).pagetable = p.pagetable ∧
      wfQ (removePage p t) ∧
      queueList (removePage p t) = rotL (C ++ A) (C.length - 1) ∧
      List.Perm (queueList (removePage p t)) (A ++ C) := by
  obtain ⟨m1, m2, m3, m4⟩ := removePage_found p t A C h hsplit hA hC
  refine ⟨m1, m2, m3, m4, ?_⟩
  rw [m4]
  exact (rotL_perm _ _).trans List.perm_append_comm

theorem claim_C5_witness : sameMeta procQ3 (removePage procQ3 4) ∧
    (removePage procQ3 4).pagetable = procQ3.pagetable ∧
    wfQ (removePage procQ3 4) ∧
    queueList (removePage procQ3 4)
      = rotL ([5, 6] ++ []) (([5, 6] : List Int).length - 1) ∧
    List.Perm (queueList (removePage procQ3 4)) ([] ++ [5, 6]) :=
  claim_C5 procQ3 4 [] [5, 6] (by decide) (by decide) (by decide) (by decide)

/-- C5 counterexample: removing the head 4 of queue [4, 5, 6] leaves
[6, 5], not the claimed order-preserving [5, 6]. -/
theorem claim_C5_counterexample :
    queueList procQ3 = [4, 5, 6] ∧
      queueList (removePage procQ3 4) = [6, 5] ∧
      queueList (removePage procQ3 4) ≠ [5, 6] := by
  refine ⟨by decide, by decide, by decide⟩

/-- C7: page_to_file clears the victim's valid bit, sets its paged-out
bit, preserves every other PTE bit below 64 relative to the state the
selector returned, marks the victim's metadata not in use with the given
swap offset, decrements pagesInMemory by one, and leaves every other
PageMeta entry of the original process unchanged. -/
theorem claim_C7 (sel : Selection) (p : Proc) (off : Nat) :
    (((page_to_file sel p off).pagetable (getIndexToRemove sel p).1).testBit 0
        = false) ∧
    (((page_to_file sel p off).pagetable (getIndexToRemove sel p).1).testBit 9
        = true) ∧
    (∀ b : Nat, b < 64 → b ≠ 0 → b ≠ 9 →
      ((page_to_file sel p off).pagetable (getIndexToRemove sel p).1).testBit b
        = ((getIndexToRemove sel p).2.pagetable
            (getIndexToRemove sel p).1).testBit b) ∧
    ((page_to_file sel p off).data (getIndexToRemove sel p).1).inUse = false ∧
    ((page_to_file sel p off).data (getIndexToRemove sel p).1).offset
      = intOfUint off ∧
    (page_to_file sel p off).pagesInMemory = p.pagesInMemory - 1 ∧
    (∀ j : Int, j ≠ (getIndexToRemove sel p).1 →
      (page_to_file sel p off).data j = p.data j) := by
  obtain ⟨fd, fpim, fpid, fsz, fwo⟩ := getIndexToRemove_frame sel p
  obtain ⟨b1, b2, b3⟩ := pte_out_bits
    ((getIndexToRemove sel p).2.pagetable (getIndexToRemove sel p).1)
  refine ⟨?_, ?_, ?_, ?_, ?_, ?_, ?_⟩
  · rw [page_to_file_pagetable, Function.update_same]
    exact b1
  · rw [page_to_file_pagetable, Function.update_same]
    exact b2
  · intro b hb h0 h9
    rw [page_to_file_pagetable, Function.update_same]
    exact b3 b hb h0 h9
  · rw [page_to_file_data, Function.update_same]
  · rw [page_to_file_data, Function.update_same]
  · rw [page_to_file_pim, fpim]
  · intro j hj
    rw [page_to_file_data, Function.update_noteq hj, fd]

/-- C8 (amended): getOffset returns the smallest page-aligned offset below
the process size that no PageMeta entry records, whenever such a free
offset exists; when every candidate offset is occupied it falls back to 0,
which can coincide with an occupied slot. -/
theorem claim_C8 (p : Proc) :
    (∀ k : Nat, 4096 * k < p.sz →
      (∀ j : Nat, j < 32 →
        (p.data (j : Int)).offset ≠ ((4096 * k : Nat) : Int)) →
      (∀ k2 : Nat, k2 < k → ∃ j : Nat, j < 32 ∧
        (p.data (j : Int)).offset = ((4096 * k2 : Nat) : Int)) →
      getOffset p = 4096 * k) ∧
    ((∀ k : Nat, 4096 * k < p.sz → ∃ j : Nat, j < 32 ∧
        (p.data (j : Int)).offset = ((4096 * k : Nat) : Int)) →
      getOffset p = 0) := by
  constructor
  · intro k hk hfree hmin
    exact getOffset_least p k hk hfree hmin
  · intro hall
    unfold getOffset
    have h0 : (0 : Nat) = 4096 * 0 := by norm_num
    rw [h0]
    exact (getOffsetGo_spec (p.sz / 4096 + 1) 0 p (by omega)).1
      (fun k _ hk => hall k hk)

theorem claim_C8_witness : getOffset procOff = 4096 * 1 :=
  (claim_C8 procOff).1 1 (by decide) (by decide)
    (by
      intro k2 hk2
      have hk0 : k2 = 0 := by omega
      subst hk0
      exact ⟨0, by decide, by decide⟩)

/-- C8 counterexample: in procOffFull every candidate offset is occupied,
and getOffset returns 0 although slot 0 is recorded as the offset of page
0 - the result does not identify an unoccupied slot. -/
theorem claim_C8_counterexample :
    getOffset procOffFull = 0 ∧ 4096 * 0 < procOffFull.sz ∧
      (procOffFull.data ((0 : Nat) : Int)).offset
        = ((4096 * 0 : Nat) : Int) := by
  refine ⟨by decide, by decide, by decide⟩

/-- C9: uvmunmap on an aligned range all of whose walked pages hold a zero
PTE and an already reset swap offset returns the process unchanged - page
table, PageMeta, pagesInMemory and queue intact, no panic - and silently
skips pages whose walk fails. -/
theorem claim_C9 (sel : Selection) (p : Proc) (va npages : Nat) (free : Bool)
    (hva : va % 4096 = 0)
    (hcond : ∀ k : Nat, k < npages →
      p.walkOk ((va / 4096 + k : Nat) : Int) = true →
      (p.pagetable ((va / 4096 + k : Nat) : Int) = 0 ∧
        (((va / 4096 + k : Nat) : Int) < 32 →
          (p.data ((va / 4096 + k : Nat) : Int)).offset = -1))) :
    uvmunmap sel p va npages free = some p :=
  uvmunmap_noop sel p va npages free hva hcond

theorem claim_C9_witness :
    uvmunmap Selection.NFUA procEmpty 0 4 true = some procEmpty :=
  claim_C9 Selection.NFUA procEmpty 0 4 true (by decide) (by decide)

/-- C10: whenever every in-use page with index at least 3 has an aging
counter of at least 2^31 (in particular when no page with index at least 3
is in use at all), nfua returns -1, and page_to_file hands the page-table
walk the unchecked virtual address -1 * PGSIZE = -4096. -/
theorem claim_C10 (p : Proc)
    (h : ∀ j : Nat, j < 32 → 3 ≤ j → (p.data (j : Int)).inUse = true →
      2 ^ 31 ≤ (p.data (j : Int)).agingCounter) :
    nfua p = -1 ∧ page_to_file_walkVA Selection.NFUA p = -4096 := by
  rcases nfua_cases p with ⟨h1, _⟩ | ⟨jv, hj3, hj32, hjeq, hju, hja, _, _⟩
  · refine ⟨h1, ?_⟩
    show nfua p * 4096 = -4096
    rw [h1]
    norm_num
  · have := h jv hj32 hj3 hju
    omega

theorem claim_C10_witness : nfua procAgingHigh = -1 ∧
    page_to_file_walkVA Selection.NFUA procAgingHigh = -4096 :=
  claim_C10 procAgingHigh (by decide)

/-- C1 (amended): at every quiescent point the Inv invariant gives
count(inUse) = pagesInMemory ≤ MAX_PSYC_PAGES, with the resident queue's
numOfPages equal to that count under SCFIFO but identically 0 under NFUA
and LAPA (those policies never enqueue); the invariant is preserved by
page_to_file (victim selection succeeding), swap_in, uvmunmap (with
presence implying consistent metadata) and uvmalloc growth (with
successful kalloc/mappages oracles and a free, unmapped growth range). -/
theorem claim_C1 (sel : Selection) (p : Proc) (hsel : sel ≠ Selection.NONE)
    (hInv : Inv sel p) :
    ((countInUse p : Int) = p.pagesInMemory ∧
      p.pagesInMemory ≤ MAX_PSYC_PAGES ∧
      (sel = Selection.SCFIFO → p.numOfPages = p.pagesInMemory) ∧
      (sel ≠ Selection.SCFIFO → p.numOfPages = 0)) ∧
    (∀ off : Nat, victimOk sel p → Inv sel (page_to_file sel p off)) ∧
    (∀ va buff : Nat, va < 32 * 4096 →
      (p.data ((va / 4096 : Nat) : Int)).inUse = false →
      0 ≤ (p.data ((va / 4096 : Nat) : Int)).offset → buff ≠ 0 →
      (16 ≤ p.pagesInMemory → victimOk sel p) →
      ∀ q : Proc, swap_in sel p va buff = some q → Inv sel q) ∧
    (∀ (va npages : Nat) (free : Bool),
      (∀ k : Nat, k < npages →
        p.walkOk ((va / 4096 + k : Nat) : Int) = true →
        p.pagetable ((va / 4096 + k : Nat) : Int) &&& PTE_V ≠ 0 →
        (PTE_FLAGS (p.pagetable ((va / 4096 + k : Nat) : Int)) ≠ PTE_V ∧
          (((va / 4096 + k : Nat) : Int) < 32 →
            (p.data ((va / 4096 + k : Nat) : Int)).inUse = true))) →
      ∀ q : Proc, uvmunmap sel p va npages free = some q → Inv sel q) ∧
    (∀ (oldsz newsz : Nat) (kR : Nat → Nat) (mO : Nat → Bool),
      1 < p.pid → (∀ j : Nat, kR j ≠ 0) → (∀ j : Nat, mO j = true) →
      newsz ≤ 32 * 4096 → 3 * 4096 ≤ PGROUNDUP oldsz →
      (∀ j : Nat, PGROUNDUP oldsz ≤ 4096 * j → j < 32 →
        (p.data (j : Int)).inUse = false ∧
          p.pagetable (j : Int) &&& PTE_V = 0) →
      (16 ≤ p.pagesInMemory → victimOk sel p) →
      ∀ r : Nat × Proc, uvmalloc sel p oldsz newsz kR mO = some r →
        Inv sel r.2) := by
  refine ⟨⟨hInv.1, hInv.2.1, ?_, ?_⟩, ?_, ?_, ?_, ?_⟩
  · intro hsc
    subst hsc
    exact Inv_scfifo_num p hInv
  · intro hsc
    have h := hInv.2.2.2
    rw [if_neg hsc] at h
    exact h
  · intro off hvic
    exact (page_to_file_Inv sel p off hsel hInv hvic).1
  · intro va buff h1 h2 h3 h4 h5 q hq
    exact swap_in_Inv sel p va buff hsel hInv h1 h2 h3 h4 h5 q hq
  · intro va npages free hcond q hq
    unfold uvmunmap at hq
    by_cases halign : va % 4096 ≠ 0
    · rw [if_pos halign] at hq
      exact Option.noConfusion hq
    · rw [if_neg halign] at hq
      exact unmapLoop_Inv npages sel p va free hsel hInv hcond q hq
  · intro oldsz newsz kR mO hpid hkR hmO hnsz hold hfresh hvic r hq
    exact uvmalloc_Inv sel p oldsz newsz kR mO hsel hpid hInv hkR hmO hnsz
      hold hfresh hvic r hq

theorem claim_C1_witness : (countInUse procEmpty : Int)
      = procEmpty.pagesInMemory ∧
    procEmpty.pagesInMemory ≤ MAX_PSYC_PAGES ∧
    (Selection.NFUA = Selection.SCFIFO →
      procEmpty.numOfPages = procEmpty.pagesInMemory) ∧
    (Selection.NFUA ≠ Selection.SCFIFO → procEmpty.numOfPages = 0) :=
  (claim_C1 Selection.NFUA procEmpty (by decide) Inv_NFUA_procEmpty).1

/-- C1 counterexample: growing procEmpty by one page under NFUA yields a
state with one in-use page and pagesInMemory 1 but numOfPages still 0, so
the claimed three-way equality of the in-use count, pagesInMemory and the
resident queue's numOfPages fails on the code. -/
theorem claim_C1_counterexample :
    Option.map (fun r : Nat × Proc =>
        ((countInUse r.2 : Int), r.2.pagesInMemory, r.2.numOfPages))
      (uvmalloc Selection.NFUA procEmpty 0 4096 (fun _ => 1) (fun _ => true))
      = some (1, 1, 0) ∧ (1 : Int) ≠ 0 := by
  refine ⟨by decide, by decide⟩

/-- C2 (amended): under a paging policy, uvmalloc's result is the new size
on success, 0 on an allocation or mapping failure, the old size when
newsz < oldsz, or the 64-bit representation of -1; growth whose range lies
beyond page index 32 is rejected with that -1 value (not 0), and the
boundary admits index 32 itself, one page past MAX_TOTAL_PAGES. -/
theorem claim_C2 (sel : Selection) (p : Proc) (oldsz newsz : Nat)
    (kR : Nat → Nat) (mO : Nat → Bool) (hsel : sel ≠ Selection.NONE) :
    (∀ r : Nat × Proc, uvmalloc sel p oldsz newsz kR mO = some r →
      r.1 = newsz ∨ r.1 = 0 ∨ r.1 = oldsz ∨ r.1 = 2 ^ 64 - 1) ∧
    (1 < p.pid → ¬ newsz < oldsz → 33 * 4096 ≤ PGROUNDUP oldsz →
      PGROUNDUP oldsz < newsz →
      uvmalloc sel p oldsz newsz kR mO = some (2 ^ 64 - 1, p)) :=
  ⟨fun r hq => uvmalloc_val sel p oldsz newsz kR mO hsel r hq,
   fun hpid hle hbig hlt =>
     uvmalloc_reject sel p oldsz newsz kR mO hsel hpid hle hbig hlt⟩

theorem claim_C2_witness :
    uvmalloc Selection.NFUA procEmpty (33 * 4096) (34 * 4096) (fun _ => 1)
      (fun _ => true) = some (2 ^ 64 - 1, procEmpty) :=
  (claim_C2 Selection.NFUA procEmpty (33 * 4096) (34 * 4096) (fun _ => 1)
      (fun _ => true) (by decide)).2 (by decide) (by decide) (by decide)
    (by decide)

/-- C2 counterexample: growing from 33 to 34 pages under NFUA returns
2^64 - 1, which is neither the new size nor 0; and growing from 32 to 33
pages - already past MAX_TOTAL_PAGES - is not rejected but succeeds with
the new size. -/
theorem claim_C2_counterexample :
    Option.map Prod.fst (uvmalloc Selection.NFUA procEmpty (33 * 4096)
        (34 * 4096) (fun _ => 1) (fun _ => true)) = some (2 ^ 64 - 1) ∧
      (2 ^ 64 - 1 : Nat) ≠ 34 * 4096 ∧ (2 ^ 64 - 1 : Nat) ≠ 0 ∧
      Option.map Prod.fst (uvmalloc Selection.NFUA procEmpty (32 * 4096)
        (33 * 4096) (fun _ => 1) (fun _ => true)) = some (33 * 4096) := by
  refine ⟨by decide, by decide, by decide, by decide⟩

/-- C6: for swap_in on a page with a non-negative swap offset and a
non-null frame, afterwards the page's metadata reads in use, offset -1 and
aging counter initAging; below the residency cap the PTE is exactly the
packed frame with the valid bit set and pagesInMemory grows by one from
the pre-call state; at the cap page_to_file runs first with this page's
old offset and the installed PTE has valid set and paged-out clear, with
pagesInMemory one more than in the post-eviction state. -/
theorem claim_C6 (sel : Selection) (p : Proc) (va buff : Nat) (q : Proc)
    (hoff : 0 ≤ (p.data ((va / 4096 : Nat) : Int)).offset)
    (hbuff : buff ≠ 0)
    (hq : swap_in sel p va buff = some q) :
    ((q.data ((va / 4096 : Nat) : Int)).inUse = true ∧
      (q.data ((va / 4096 : Nat) : Int)).offset = -1 ∧
      (q.data ((va / 4096 : Nat) : Int)).agingCounter
        = (initAging sel ((va / 4096 : Nat) : Int) p).1) ∧
    (p.pagesInMemory < 16 →
      q.pagetable ((va / 4096 : Nat) : Int) = PA2PTE buff ||| PTE_V ∧
        (q.pagetable ((va / 4096 : Nat) : Int)).testBit 0 = true ∧
        q.pagesInMemory = p.pagesInMemory + 1) ∧
    (¬ p.pagesInMemory < 16 →
      (q.pagetable ((va / 4096 : Nat) : Int)).testBit 0 = true ∧
        (q.pagetable ((va / 4096 : Nat) : Int)).testBit 9 = false ∧
        q.pagesInMemory = (page_to_file sel p
          (uintOfInt (p.data ((va / 4096 : Nat) : Int)).offset)).pagesInMemory
          + 1) := by
  have hoffne : ¬ (p.data ((va / 4096 : Nat) : Int)).offset = -1 := by omega
  have hbuffne : ¬ buff = 0 := hbuff
  by_cases hpim : p.pagesInMemory < 16
  · simp only [swap_in, if_neg hoffne, if_neg hbuffne, if_pos hpim] at hq
    rw [Option.some.injEq] at hq
    subst hq
    refine ⟨?_, ?_, ?_⟩
    · rw [swap_in_install_data]
      exact ⟨rfl, rfl, initAging_fst sel _ _ p⟩
    · intro _
      refine ⟨?_, ?_, ?_⟩
      · rw [swap_in_install_pt]
        show Function.update p.pagetable ((va / 4096 : Nat) : Int)
          (PA2PTE buff ||| PTE_V) ((va / 4096 : Nat) : Int) = _
        rw [Function.update_same]
      · rw [swap_in_install_pt]
        show (Function.update p.pagetable ((va / 4096 : Nat) : Int)
          (PA2PTE buff ||| PTE_V) ((va / 4096 : Nat) : Int)).testBit 0 = true
        rw [Function.update_same]
        exact testBit0_or_V _
      · rw [swap_in_install_pim]
    · intro hcon
      exact absurd hpim hcon
  · simp only [swap_in, if_neg hoffne, if_neg hbuffne, if_neg hpim] at hq
    rw [Option.some.injEq] at hq
    subst hq
    refine ⟨?_, ?_, ?_⟩
    · rw [swap_in_install_data]
      exact ⟨rfl, rfl, initAging_fst sel _ _ p⟩
    · intro hcon
      exact absurd hcon hpim
    · intro _
      refine ⟨?_, ?_, ?_⟩
      · rw [swap_in_install_pt]
        show (Function.update (page_to_file sel p (uintOfInt (p.data ((va / 4096 : Nat) : Int)).offset)).pagetable ((va / 4096 : Nat) : Int) (PA2PTE buff ||| ((PTE_FLAGS ((page_to_file sel p (uintOfInt (p.data ((va / 4096 : Nat) : Int)).offset)).pagetable ((va / 4096 : Nat) : Int)) &&& (U64MASK ^^^ PTE_PG)) ||| PTE_V)) ((va / 4096 : Nat) : Int)).testBit 0 = true
        rw [Function.update_same]
        exact (swap_in_pte_bits _ _).1
      · rw [swap_in_install_pt]
        show (Function.update (page_to_file sel p (uintOfInt (p.data ((va / 4096 : Nat) : Int)).offset)).pagetable ((va / 4096 : Nat) : Int) (PA2PTE buff ||| ((PTE_FLAGS ((page_to_file sel p (uintOfInt (p.data ((va / 4096 : Nat) : Int)).offset)).pagetable ((va / 4096 : Nat) : Int)) &&& (U64MASK ^^^ PTE_PG)) ||| PTE_V)) ((va / 4096 : Nat) : Int)).testBit 9 = false
        rw [Function.update_same]
        exact (swap_in_pte_bits _ _).2
      · rw [swap_in_install_pim]

theorem claim_C6_witness :
    (qC6.data (((3 * 4096) / 4096 : Nat) : Int)).inUse = true ∧
      (qC6.data (((3 * 4096) / 4096 : Nat) : Int)).offset = -1 ∧
      (qC6.data (((3 * 4096) / 4096 : Nat) : Int)).agingCounter
        = (initAging Selection.NFUA (((3 * 4096) / 4096 : Nat) : Int)
            procSwap).1 :=
  (claim_C6 Selection.NFUA procSwap (3 * 4096) 1 qC6 (by decide) (by decide)
    (by rfl)).1

theorem claim_C7_witness :
    (((page_to_file Selection.NFUA procAging 7).pagetable
        (getIndexToRemove Selection.NFUA procAging).1).testBit 0 = false) ∧
    (((page_to_file Selection.NFUA procAging 7).pagetable
        (getIndexToRemove Selection.NFUA procAging).1).testBit 9 = true) ∧
    (∀ b : Nat, b < 64 → b ≠ 0 → b ≠ 9 →
      ((page_to_file Selection.NFUA procAging 7).pagetable
          (getIndexToRemove Selection.NFUA procAging).1).testBit b
        = ((getIndexToRemove Selection.NFUA procAging).2.pagetable
            (getIndexToRemove Selection.NFUA procAging).1).testBit b) ∧
    ((page_to_file Selection.NFUA procAging 7).data
        (getIndexToRemove Selection.NFUA procAging).1).inUse = false ∧
    ((page_to_file Selection.NFUA procAging 7).data
        (getIndexToRemove Selection.NFUA procAging).1).offset = intOfUint 7 ∧
    (page_to_file Selection.NFUA procAging 7).pagesInMemory
      = procAging.pagesInMemory - 1 ∧
    (∀ j : Int, j ≠ (getIndexToRemove Selection.NFUA procAging).1 →
      (page_to_file Selection.NFUA procAging 7).data j = procAging.data j) :=
  claim_C7 Selection.NFUA procAging 7

end Paging
